import Mathlib

/-!
Verification of the ordered-collection synchronization engine of the
antist-todolist repository.

The entity records (type.ts) encode per-partition ordering as an intrusive
doubly-linked list: each record carries `prev`/`next` identifiers of its
neighbours inside one partition (tasks partitioned by `status`, statuses by
`project`, projects in one global per-user partition).  All four entity kinds
share this single pointer scheme, so the chain model below is developed once,
over the richest record shape (the task record, which also carries
`previousStatus`); the theorems about partitions apply to each entity kind by
instantiating the partition key accordingly.

The chain-manipulation functions themselves (`utils/utils.ts`,
`utils/actions.ts`) are imported by every component but are not part of the
sources; the definitions below that stand in for them are modelled from the
specification (sections 4.1-4.5) and are marked as such in their doc comments.
The validator (`data/analyze_chains.js`), the component gesture handlers
(`AddNewTask.tsx`, `ProjectButton.tsx`) and the initial loader
(`AppContext.tsx` / `loadInitData.ts`) are present in the sources and are
embedded directly from the code.
-/

namespace Antist

/-- Embeds `TaskType` from `type.ts`: identity, title, optional due date and
description, `status` (current partition key), `previousStatus` (partition key
before the most recent move), `prev`/`next` neighbour identifiers, owner. -/
structure TaskType where
  id : String
  title : String
  dueDate : Option Nat := none
  description : Option String := none
  status : String
  previousStatus : String
  prev : Option String
  next : Option String
  userId : String := ""
deriving Repr, DecidableEq

/-- Embeds `TaskData = Record<TaskId, TaskType>`: the working copy of one
entity kind, as an insertion-ordered collection of records with (intended)
unique identifiers. -/
abbrev TaskData := List TaskType

/-- The identifiers held in a store, in store order. -/
def idsOf (s : TaskData) : List String := s.map TaskType.id

/-- Embeds map access `tasks[id]`: the first record carrying the identifier. -/
def lookupRec (s : TaskData) (i : String) : Option TaskType :=
  s.find? (fun r => r.id == i)

/-- The records of one partition (`Object.values(tasks).filter(t => t.status === k)`). -/
def membersOf (s : TaskData) (k : String) : TaskData :=
  s.filter (fun r => r.status == k)

/-- A partial record update, mirroring `Partial<Omit<TaskType,'userId'>>` in
the `BulkPayload` update payloads of `type.ts`: each field is either left
alone or overwritten. -/
structure Patch where
  title : Option String := none
  status : Option String := none
  previousStatus : Option String := none
  prev : Option (Option String) := none
  next : Option (Option String) := none
deriving Repr, DecidableEq

/-- Apply a partial update to a record (the spread `{ ...r, ...updatedFields }`). -/
def applyPatch (p : Patch) (r : TaskType) : TaskType :=
  { r with
    title := p.title.getD r.title
    status := p.status.getD r.status
    previousStatus := p.previousStatus.getD r.previousStatus
    prev := p.prev.getD r.prev
    next := p.next.getD r.next }

/-- Overwrite the fields of the record holding identifier `i`. -/
def updateRec (s : TaskData) (i : String) (p : Patch) : TaskData :=
  s.map (fun r => if r.id == i then applyPatch p r else r)

/-- Remove the record holding identifier `i`. -/
def removeRec (s : TaskData) (i : String) : TaskData :=
  s.filter (fun r => r.id != i)

/-- A primitive operation of a bulk transaction, as in the `ops` list of
`BulkPayload` (`type.ts`): an add carrying a full record, an update carrying
an identifier and the changed fields, or a delete carrying an identifier. -/
inductive PrimOp where
  | padd (r : TaskType)
  | pupd (i : String) (p : Patch)
  | pdel (i : String)
deriving Repr, DecidableEq

/-- The identifier a primitive operation targets. -/
def PrimOp.target : PrimOp → String
  | .padd r => r.id
  | .pupd i _ => i
  | .pdel i => i

/-- Apply one primitive operation to the working copy. -/
def applyPrim (s : TaskData) : PrimOp → TaskData
  | .padd r => r :: s
  | .pupd i p => updateRec s i p
  | .pdel i => removeRec s i

/-- Apply an operation list in order (the optimistic-apply path of section 4.3). -/
def applyPrims (s : TaskData) (ops : List PrimOp) : TaskData :=
  ops.foldl applyPrim s

/-- The first record of a partition with `prev = null`
(`tasksInStatus.find(task => task.prev === null)`, as in `AIChatPanel.tsx`). -/
def findHead (s : TaskData) (k : String) : Option TaskType :=
  s.find? (fun r => r.status == k && r.prev == none)

/-- Modelled from the spec: the neighbour updates of `unlink(id)` in section
4.1 of the missing `utils/utils.ts` chain operations — the predecessor's
`next` and the successor's `prev` are spliced to point at each other,
bypassing the record. -/
def spliceOps (r : TaskType) : List PrimOp :=
  (match r.prev with
   | none => []
   | some p => [.pupd p { next := some r.next }]) ++
  (match r.next with
   | none => []
   | some n => [.pupd n { prev := some r.prev }])

/-- Modelled from the spec: the re-linking half of `insert(newRecord, null)`
in section 4.1 of the missing `utils/utils.ts` — with no explicit neighbour
the record becomes the head of partition `k` (`prev = null`, `next` = the old
head's identifier or null), and the old head (`hd`, if any) gets `prev`
pointed at the record; `previousStatus` is set to the partition key held
before the move (section 4.1, move contract). -/
def relinkHeadOps (r : TaskType) (k : String) (hd : Option TaskType) : List PrimOp :=
  match hd with
  | none =>
      [.pupd r.id { prev := some none, next := some none,
                    status := some k, previousStatus := some r.status }]
  | some h =>
      [.pupd r.id { prev := some none, next := some (some h.id),
                    status := some k, previousStatus := some r.status },
       .pupd h.id { prev := some (some r.id) }]

/-- Modelled from the spec: the re-linking half of `insert(newRecord, afterId)`
in section 4.1 of the missing `utils/utils.ts` — the record is linked directly
after `ar`, and the record previously following `ar` (if any) is relinked to
point `prev` at it. -/
def relinkAfterOps (r : TaskType) (k : String) (ar : TaskType) : List PrimOp :=
  [.pupd r.id { prev := some (some ar.id), next := some ar.next,
                status := some k, previousStatus := some r.status },
   .pupd ar.id { next := some (some r.id) }] ++
  (match ar.next with
   | none => []
   | some nid => [.pupd nid { prev := some (some r.id) }])

/-- Modelled from the spec: the operation list of an add gesture (sections 3
and 4.1 of the missing `utils/actions.ts` add action) — the new record is
added and then linked at the head of its partition, or directly after the
given neighbour; the neighbours are computed against the state before the
add. -/
def addOps (s : TaskData) (nr : TaskType) (afterId : Option String) : List PrimOp :=
  match afterId with
  | none => .padd nr :: relinkHeadOps nr nr.status (findHead s nr.status)
  | some a =>
      match lookupRec s a with
      | none => []
      | some ar => .padd nr :: relinkAfterOps nr nr.status ar

/-- Modelled from the spec: the operation list of `move(id, newKey, afterId)`
(section 4.1 of the missing `utils/utils.ts`) — equivalent to `unlink` in the
old partition followed by `insert` in the new partition, updating the
partition-key field and `previousStatus`; a self-move (section 4.5: dropping
the record at the position it already occupies) produces an empty operation
list. -/
def moveOps (s : TaskData) (i : String) (newKey : String) (afterId : Option String) :
    List PrimOp :=
  match lookupRec s i with
  | none => []
  | some r =>
      if newKey = r.status ∧ afterId = r.prev then []
      else
        match afterId with
        | none =>
            spliceOps r ++
              relinkHeadOps r newKey (findHead (applyPrims s (spliceOps r)) newKey)
        | some a =>
            match lookupRec (applyPrims s (spliceOps r)) a with
            | none => []
            | some ar => spliceOps r ++ relinkAfterOps r newKey ar

/-- Modelled from the spec: the operation list of a delete gesture (section 3
lifecycle of the missing `utils/actions.ts` delete action) — the record is
excised from its chain, the former neighbours are relinked directly to each
other, and the record is removed. -/
def deleteOps (s : TaskData) (i : String) : List PrimOp :=
  match lookupRec s i with
  | none => []
  | some r => spliceOps r ++ [.pdel i]

/-- A high-level intent of a user gesture (section 6 user-gesture interface):
add with an optional explicit neighbour, move to a partition at an optional
neighbour, delete, or a payload-field update. -/
inductive Intent where
  | iadd (nr : TaskType) (afterId : Option String)
  | imove (i : String) (newKey : String) (afterId : Option String)
  | idel (i : String)
  | iupd (i : String) (title : String)
deriving Repr, DecidableEq

/-- Modelled from the spec: the Bulk Transaction Builder (section 4.2) turns
one intent into its flat primitive operation list, computed against the
current working copy. -/
def compileIntent (s : TaskData) : Intent → List PrimOp
  | .iadd nr afterId => addOps s nr afterId
  | .imove i k afterId => moveOps s i k afterId
  | .idel i => deleteOps s i
  | .iupd i t => [.pupd i { title := some t }]

/-- Apply one intent to the working copy through the bulk-transaction apply
path. -/
def applyIntent (s : TaskData) (g : Intent) : TaskData :=
  applyPrims s (compileIntent s g)

/-- Apply a sequence of intents in order. -/
def applySeq (s : TaskData) (gs : List Intent) : TaskData :=
  gs.foldl applyIntent s

/-! ### Basic store lemmas -/

theorem lookupRec_some {s : TaskData} {i : String} {r : TaskType}
    (h : lookupRec s i = some r) : r ∈ s ∧ r.id = i := by
  refine ⟨List.mem_of_find?_eq_some h, ?_⟩
  have hp := List.find?_some h
  simpa using hp

theorem lookupRec_mem {s : TaskData} {r : TaskType}
    (hn : (idsOf s).Nodup) (hr : r ∈ s) : lookupRec s r.id = some r := by
  induction s with
  | nil => cases hr
  | cons a t ih =>
      rcases List.mem_cons.mp hr with h | h
      · subst h
        simp [lookupRec]
      · have hne : a.id ≠ r.id := by
          intro he
          have : r.id ∈ idsOf t := List.mem_map_of_mem TaskType.id h
          rw [idsOf, List.map_cons, List.nodup_cons] at hn
          exact hn.1 (he ▸ this)
        have ht : (idsOf t).Nodup := by
          rw [idsOf, List.map_cons, List.nodup_cons] at hn
          exact hn.2
        rw [lookupRec, List.find?_cons_of_neg _ (by simpa using hne)]
        exact ih ht h

theorem mem_membersOf {s : TaskData} {k : String} {r : TaskType} :
    r ∈ membersOf s k ↔ r ∈ s ∧ r.status = k := by
  simp [membersOf, List.mem_filter]

theorem findHead_some {s : TaskData} {k : String} {h : TaskType}
    (hf : findHead s k = some h) : h ∈ s ∧ h.status = k ∧ h.prev = none := by
  refine ⟨List.mem_of_find?_eq_some hf, ?_, ?_⟩ <;>
    · have hp := List.find?_some hf
      simp at hp
      simp [hp]

theorem findHead_isSome {s : TaskData} {k : String} {r : TaskType}
    (hr : r ∈ s) (hst : r.status = k) (hp : r.prev = none) :
    ∃ h, findHead s k = some h := by
  have : (s.find? (fun r => r.status == k && r.prev == none)).isSome := by
    rw [List.find?_isSome]
    exact ⟨r, hr, by simp [hst, hp]⟩
  rcases Option.isSome_iff_exists.mp this with ⟨h, hh⟩
  exact ⟨h, hh⟩

theorem removeRec_eq_self {s : TaskData} {i : String} (h : i ∉ idsOf s) :
    removeRec s i = s := by
  rw [removeRec, List.filter_eq_self]
  intro r hr
  have : r.id ≠ i := fun he => h (he ▸ List.mem_map_of_mem TaskType.id hr)
  simpa using this

theorem mem_removeRec {s : TaskData} {i : String} {r : TaskType} :
    r ∈ removeRec s i ↔ r ∈ s ∧ r.id ≠ i := by
  simp [removeRec, List.mem_filter]

theorem idsOf_removeRec (s : TaskData) (i : String) :
    idsOf (removeRec s i) = (idsOf s).filter (fun j => j != i) := by
  induction s with
  | nil => rfl
  | cons a t ih =>
      simp only [idsOf, removeRec] at ih ⊢
      by_cases h : a.id = i
      · rw [List.filter_cons_of_neg (by simp [h]), List.map_cons,
          List.filter_cons_of_neg (by simp [h])]
        exact ih
      · rw [List.filter_cons_of_pos (by simp [h]), List.map_cons, List.map_cons,
          List.filter_cons_of_pos (by simp [h]), ih]

theorem nodup_removeRec {s : TaskData} {i : String} (hn : (idsOf s).Nodup) :
    (idsOf (removeRec s i)).Nodup := by
  rw [idsOf_removeRec]
  exact hn.filter _

theorem perm_cons_removeRec {s : TaskData} {r : TaskType}
    (hn : (idsOf s).Nodup) (hr : r ∈ s) : s.Perm (r :: removeRec s r.id) := by
  induction s with
  | nil => cases hr
  | cons a t ih =>
      rw [idsOf, List.map_cons, List.nodup_cons] at hn
      rcases List.mem_cons.mp hr with h | h
      · subst h
        have hstep : removeRec (r :: t) r.id = removeRec t r.id := by
          rw [removeRec, List.filter_cons_of_neg (by simp)]
          rfl
        rw [hstep, removeRec_eq_self hn.1]
      · have hne : a.id ≠ r.id := by
          intro he
          exact hn.1 (he ▸ List.mem_map_of_mem TaskType.id h)
        have hstep : removeRec (a :: t) r.id = a :: removeRec t r.id := by
          rw [removeRec, List.filter_cons_of_pos (by simp [hne])]
          rfl
        rw [hstep]
        exact ((ih hn.2 h).cons a).trans (List.Perm.swap r a _)

/-- The single-record update function underlying `updateRec`. -/
def updF (i : String) (p : Patch) (r : TaskType) : TaskType :=
  if r.id == i then applyPatch p r else r

theorem updateRec_eq_map (s : TaskData) (i : String) (p : Patch) :
    updateRec s i p = s.map (updF i p) := rfl

theorem applyPatch_id (p : Patch) (r : TaskType) : (applyPatch p r).id = r.id := rfl

theorem updF_id (i : String) (p : Patch) (r : TaskType) : (updF i p r).id = r.id := by
  rw [updF]
  split <;> rfl

theorem idsOf_updateRec (s : TaskData) (i : String) (p : Patch) :
    idsOf (updateRec s i p) = idsOf s := by
  rw [updateRec_eq_map, idsOf, idsOf, List.map_map]
  apply List.map_congr_left
  intro r _
  exact updF_id i p r

theorem updateRec_eq_self {s : TaskData} {i : String} (h : i ∉ idsOf s) (p : Patch) :
    updateRec s i p = s := by
  rw [updateRec_eq_map]
  have : ∀ r ∈ s, updF i p r = r := by
    intro r hr
    have : r.id ≠ i := fun he => h (he ▸ List.mem_map_of_mem TaskType.id hr)
    simp [updF, this]
  calc s.map (updF i p) = s.map id := List.map_congr_left this
    _ = s := List.map_id s

theorem updateRec_cons_hit {r : TaskType} {i : String} (h : r.id = i) (s : TaskData)
    (p : Patch) : updateRec (r :: s) i p = applyPatch p r :: updateRec s i p := by
  simp [updateRec_eq_map, updF, h]

theorem updateRec_cons_miss {r : TaskType} {i : String} (h : r.id ≠ i) (s : TaskData)
    (p : Patch) : updateRec (r :: s) i p = r :: updateRec s i p := by
  simp [updateRec_eq_map, updF, h]

/-! ### Permutation congruence for the apply path -/

theorem applyPrim_perm {s t : TaskData} (hp : s.Perm t) (op : PrimOp) :
    (applyPrim s op).Perm (applyPrim t op) := by
  cases op with
  | padd r => exact hp.cons r
  | pupd i p => exact hp.map (updF i p)
  | pdel i => exact hp.filter _

theorem applyPrims_perm {s t : TaskData} (hp : s.Perm t) (ops : List PrimOp) :
    (applyPrims s ops).Perm (applyPrims t ops) := by
  induction ops generalizing s t with
  | nil => exact hp
  | cons op rest ih => exact ih (applyPrim_perm hp op)

theorem membersOf_perm {s t : TaskData} (hp : s.Perm t) (k : String) :
    (membersOf s k).Perm (membersOf t k) := hp.filter _

theorem idsOf_perm {s t : TaskData} (hp : s.Perm t) : (idsOf s).Perm (idsOf t) :=
  hp.map TaskType.id

/-! ### The chain representation: a partition linearized as a linked list -/

/-- The forward pointer expected at a cell whose remaining chain is `l` and
whose chain-final pointer is `q`. -/
def nextIdOf (l : List TaskType) (q : Option String) : Option String :=
  match l.head? with
  | some r => some r.id
  | none => q

/-- `links p l q` states that the records of `l`, in order, form a doubly
linked chain whose first `prev` pointer is `p` and whose last `next` pointer
is `q`. -/
def links : Option String → List TaskType → Option String → Prop
  | _, [], _ => True
  | p, r :: l, q => r.prev = p ∧ r.next = nextIdOf l q ∧ links (some r.id) l q

/-- All records of `l` claim partition key `k`. -/
def inStatus (k : String) (l : List TaskType) : Prop := ∀ r ∈ l, r.status = k

/-- `l` is a linearization of partition `k` of store `s`: it holds the
partition's records exactly once each and they are chained from a `null` head
to a `null` tail. -/
def ChainFor (s : TaskData) (k : String) (l : List TaskType) : Prop :=
  (membersOf s k).Perm l ∧ links none l none ∧ inStatus k l

/-- Every partition of `s` linearizes into a chain. -/
def Chained (s : TaskData) : Prop := ∀ k, ∃ l, ChainFor s k l

/-- Well-formed working copy: unique identifiers and every partition chained.
This is the conjunction of the five data-model invariants of section 3,
stated through the existence of a linearization (the equivalence with the
invariant list is proved below). -/
def Shape (s : TaskData) : Prop := (idsOf s).Nodup ∧ Chained s

/-- Referential integrity (fifth invariant of section 3): every record's
partition-key field references one of the valid keys `V` (the identifiers of
the referenced entity kind plus the synthetic pseudo-partitions). -/
def RefOk (V : List String) (s : TaskData) : Prop := ∀ r ∈ s, r.status ∈ V

theorem chained_perm {s t : TaskData} (hp : s.Perm t) (hc : Chained s) : Chained t := by
  intro k
  rcases hc k with ⟨l, hl, hlk, hst⟩
  exact ⟨l, (membersOf_perm hp.symm k).trans hl, hlk, hst⟩

theorem shape_perm {s t : TaskData} (hp : s.Perm t) (hs : Shape s) : Shape t :=
  ⟨(idsOf_perm hp).nodup_iff.mp hs.1, chained_perm hp hs.2⟩

theorem refok_perm {V : List String} {s t : TaskData} (hp : s.Perm t)
    (hr : RefOk V s) : RefOk V t := fun r hm => hr r (hp.symm.subset hm)

/-! ### Decomposition lemmas for chains -/

/-- The backward pointer expected after a chain prefix `l` whose initial
backward pointer is `p`. -/
def lastIdOf (p : Option String) (l : List TaskType) : Option String :=
  match l.getLast? with
  | some r => some r.id
  | none => p

theorem nextIdOf_append (l1 : List TaskType) (r2 : TaskType) (l2 : List TaskType)
    (q : Option String) : nextIdOf (l1 ++ r2 :: l2) q = nextIdOf l1 (some r2.id) := by
  cases l1 <;> rfl

theorem lastIdOf_cons (p : Option String) (x : TaskType) (l : List TaskType) :
    lastIdOf p (x :: l) = lastIdOf (some x.id) l := by
  cases l <;> rfl

theorem links_append {l1 : List TaskType} {p q : Option String} {r2 : TaskType}
    {l2 : List TaskType} :
    links p (l1 ++ r2 :: l2) q ↔
      links p l1 (some r2.id) ∧ links (lastIdOf p l1) (r2 :: l2) q := by
  induction l1 generalizing p with
  | nil => simp [links, lastIdOf]
  | cons x l1' ih =>
      simp only [List.cons_append, links, List.append_eq, nextIdOf_append, lastIdOf_cons, ih]
      tauto

theorem links_head_char {l : List TaskType} {r : TaskType}
    (hl : links none l none) (hr : r ∈ l) (hp : r.prev = none) : l.head? = some r := by
  rcases List.append_of_mem hr with ⟨l1, l2, rfl⟩
  rcases links_append.mp hl with ⟨_, h2⟩
  have hpr : r.prev = lastIdOf none l1 := h2.1
  have hl1 : l1 = [] := by
    cases hgl : l1.getLast? with
    | some x =>
        rw [hp, lastIdOf, hgl] at hpr
        cases hpr
    | none => exact List.getLast?_eq_none_iff.mp hgl
  subst hl1
  rfl

theorem links_last_char {l : List TaskType} {r : TaskType}
    (hl : links none l none) (hr : r ∈ l) (hn : r.next = none) : l.getLast? = some r := by
  rcases List.append_of_mem hr with ⟨l1, l2, rfl⟩
  rcases links_append.mp hl with ⟨_, h2⟩
  have hnx : r.next = nextIdOf l2 none := h2.2.1
  cases l2 with
  | cons y l2' =>
      rw [hn, nextIdOf] at hnx
      cases hnx
  | nil => exact List.getLast?_concat l1

theorem eq_singleton_of_all_eq {α : Type} {L : List α} {a : α}
    (hnd : L.Nodup) (hall : ∀ x ∈ L, x = a) (hmem : a ∈ L) : L = [a] := by
  cases L with
  | nil => cases hmem
  | cons x t =>
      have hx : x = a := hall x (List.mem_cons_self x t)
      subst hx
      cases t with
      | nil => rfl
      | cons y t' =>
          have hy : y = x := hall y (by simp)
          rw [List.nodup_cons] at hnd
          exact absurd (by simp [hy]) hnd.1

theorem chain_filter_prev_none {l : List TaskType} (hl : links none l none)
    (hnd : l.Nodup) (hne : l ≠ []) :
    ∃ h, l.head? = some h ∧ l.filter (fun r => r.prev == none) = [h] := by
  cases l with
  | nil => exact absurd rfl hne
  | cons h t =>
      refine ⟨h, rfl, ?_⟩
      apply eq_singleton_of_all_eq (hnd.filter _)
      · intro x hx
        rcases List.mem_filter.mp hx with ⟨hxm, hxp⟩
        have := links_head_char hl hxm (by simpa using hxp)
        simpa using this.symm
      · rw [List.mem_filter]
        exact ⟨List.mem_cons_self h t, by simpa using hl.1⟩

theorem chain_filter_next_none {l : List TaskType} (hl : links none l none)
    (hnd : l.Nodup) (hne : l ≠ []) :
    ∃ z, l.getLast? = some z ∧ l.filter (fun r => r.next == none) = [z] := by
  rcases hgl : l.getLast? with _ | z
  · exact absurd (List.getLast?_eq_none_iff.mp hgl) hne
  refine ⟨z, rfl, ?_⟩
  have hzn : z.next = none := by
    rcases List.getLast?_eq_some_iff.mp hgl with ⟨l1, rfl⟩
    rcases List.exists_cons_of_ne_nil hne with _
    have : links (lastIdOf none l1) [z] none := by
      rcases (@links_append _ _ _ _ []).mp hl with ⟨_, h2⟩
      exact h2
    exact this.2.1
  have hzm : z ∈ l := by
    rcases List.getLast?_eq_some_iff.mp hgl with ⟨l1, rfl⟩
    simp
  apply eq_singleton_of_all_eq (hnd.filter _)
  · intro x hx
    rcases List.mem_filter.mp hx with ⟨hxm, hxp⟩
    have := links_last_char hl hxm (by simpa using hxp)
    rw [this] at hgl
    exact Option.some.inj hgl |>.symm ▸ rfl
  · rw [List.mem_filter]
    exact ⟨hzm, by simpa using hzn⟩

/-! ### The five data-model invariants of section 3 -/

/-- The records of partition `k` with `prev = null` (candidate heads). -/
def headsOf (s : TaskData) (k : String) : TaskData :=
  (membersOf s k).filter (fun r => r.prev == none)

/-- The records of partition `k` with `next = null` (candidate tails). -/
def tailsOf (s : TaskData) (k : String) : TaskData :=
  (membersOf s k).filter (fun r => r.next == none)

/-- Invariant 1: every non-empty partition has exactly one record with
`prev = null` (the head) and exactly one with `next = null` (the tail). -/
def UniqueEnds (s : TaskData) : Prop :=
  ∀ k, membersOf s k ≠ [] → (headsOf s k).length = 1 ∧ (tailsOf s k).length = 1

/-- Invariant 2: if a record's `next` is `B` then `B`'s `prev` points back at
it, and vice versa. -/
def Bidirectional (s : TaskData) : Prop :=
  ∀ r ∈ s,
    (∀ j, r.next = some j → ∃ q, lookupRec s j = some q ∧ q.prev = some r.id) ∧
    (∀ j, r.prev = some j → ∃ q, lookupRec s j = some q ∧ q.next = some r.id)

/-- Fuel-bounded traversal along `next` pointers, the linearization walk of
section 4.1 (`linearize` guards against cycles with a `count+1` step bound). -/
def walkFrom (s : TaskData) : Nat → Option String → List TaskType
  | 0, _ => []
  | _ + 1, none => []
  | fuel + 1, some i =>
      match lookupRec s i with
      | none => []
      | some r => r :: walkFrom s fuel r.next

/-- Invariant 3: no record's link chain, followed via `next`, revisits a
record already visited. -/
def NoCycles (s : TaskData) : Prop :=
  ∀ r ∈ s, ((walkFrom s (s.length + 1) (some r.id)).map TaskType.id).Nodup

/-- The linearization of partition `k`: walk from the head. -/
def traverse (s : TaskData) (k : String) : List TaskType :=
  match findHead s k with
  | none => []
  | some h => walkFrom s (s.length + 1) (some h.id)

/-- Invariant 4: traversing a partition from its head via `next` visits every
record claiming that partition key exactly once. -/
def Covers (s : TaskData) : Prop := ∀ k, (traverse s k).Perm (membersOf s k)

/-- The five chain invariants of section 3 of the specification, over valid
partition keys `V` (plus the ambient uniqueness of identifiers that a
`Record<TaskId, TaskType>` map gives the TypeScript code for free). -/
def FiveInvariants (V : List String) (s : TaskData) : Prop :=
  (idsOf s).Nodup ∧ UniqueEnds s ∧ Bidirectional s ∧ NoCycles s ∧ Covers s ∧ RefOk V s

/-! ### Shape implies the five invariants -/

theorem chainFor_nodup {s : TaskData} {k : String} {l : List TaskType}
    (hn : (idsOf s).Nodup) (hc : ChainFor s k l) :
    l.Nodup ∧ (l.map TaskType.id).Nodup := by
  have hsub : (membersOf s k).Sublist s := List.filter_sublist s
  have hmn : ((membersOf s k).map TaskType.id).Nodup := hn.sublist (hsub.map _)
  have hperm : ((membersOf s k).map TaskType.id).Perm (l.map TaskType.id) :=
    hc.1.map TaskType.id
  have hl : (l.map TaskType.id).Nodup := hperm.nodup_iff.mp hmn
  exact ⟨hl.of_map, hl⟩

theorem mem_chain_iff {s : TaskData} {k : String} {l : List TaskType}
    (hc : ChainFor s k l) {r : TaskType} : r ∈ l ↔ r ∈ s ∧ r.status = k := by
  rw [← hc.1.mem_iff, mem_membersOf]

theorem walk_of_links {s : TaskData} (hn : (idsOf s).Nodup) :
    ∀ (l : List TaskType) (p : Option String) (fuel : Nat), links p l none →
      (∀ r ∈ l, r ∈ s) → l.length < fuel →
      walkFrom s fuel (nextIdOf l none) = l := by
  intro l
  induction l with
  | nil =>
      intro p fuel _ _ hf
      obtain ⟨f, rfl⟩ : ∃ f, fuel = f + 1 := ⟨fuel - 1, by omega⟩
      rfl
  | cons r t ih =>
      intro p fuel hl hm hf
      obtain ⟨f, rfl⟩ : ∃ f, fuel = f + 1 := ⟨fuel - 1, by omega⟩
      have hlook : lookupRec s r.id = some r :=
        lookupRec_mem hn (hm r (List.mem_cons_self r t))
      have hwr : walkFrom s (f + 1) (nextIdOf (r :: t) none) = r :: walkFrom s f r.next := by
        simp [walkFrom, nextIdOf, hlook]
      rw [hwr, hl.2.1,
        ih (some r.id) f hl.2.2 (fun x hx => hm x (List.mem_cons_of_mem r hx))
          (by simpa using Nat.lt_of_succ_lt_succ hf)]

theorem shape_uniqueEnds {s : TaskData} (hs : Shape s) : UniqueEnds s := by
  intro k hne
  rcases hs.2 k with ⟨l, hc⟩
  have hlnd := (chainFor_nodup hs.1 hc).1
  have hlne : l ≠ [] := by
    intro he
    subst he
    exact hne hc.1.eq_nil
  rcases chain_filter_prev_none hc.2.1 hlnd hlne with ⟨h, _, hh⟩
  rcases chain_filter_next_none hc.2.1 hlnd hlne with ⟨z, _, hz⟩
  constructor
  · have hp : (headsOf s k).Perm (l.filter (fun r => r.prev == none)) := hc.1.filter _
    rw [hp.length_eq, hh]
    rfl
  · have hp : (tailsOf s k).Perm (l.filter (fun r => r.next == none)) := hc.1.filter _
    rw [hp.length_eq, hz]
    rfl

theorem shape_bidirectional {s : TaskData} (hs : Shape s) : Bidirectional s := by
  intro r hr
  rcases hs.2 r.status with ⟨l, hc⟩
  have hrl : r ∈ l := (mem_chain_iff hc).mpr ⟨hr, rfl⟩
  rcases List.append_of_mem hrl with ⟨l1, l2, rfl⟩
  rcases links_append.mp hc.2.1 with ⟨hfront, hback⟩
  constructor
  · intro j hj
    rcases hl2 : l2 with _ | ⟨q, l2'⟩
    · subst hl2
      have hnone : r.next = none := hback.2.1
      rw [hj] at hnone
      cases hnone
    · subst hl2
      have hq : q.prev = some r.id := hback.2.2.1
      have hqid : some q.id = some j := by
        have := hback.2.1
        rw [hj] at this
        exact this.symm
      have hqm : q ∈ s := ((mem_chain_iff hc).mp (by simp)).1
      refine ⟨q, ?_, hq⟩
      rw [← Option.some.inj hqid]
      exact lookupRec_mem hs.1 hqm
  · intro j hj
    have hpr : r.prev = lastIdOf none l1 := hback.1
    rcases hgl : l1.getLast? with _ | p0
    · rw [hj, lastIdOf, hgl] at hpr
      cases hpr
    · rcases List.getLast?_eq_some_iff.mp hgl with ⟨l1', rfl⟩
      have hpid : some p0.id = some j := by
        rw [hj, lastIdOf, hgl] at hpr
        exact hpr.symm
      rcases links_append.mp hfront with ⟨_, hlast⟩
      have hpn : p0.next = some r.id := hlast.2.1
      have hpm : p0 ∈ s := ((mem_chain_iff hc).mp (by simp)).1
      refine ⟨p0, ?_, hpn⟩
      rw [← Option.some.inj hpid]
      exact lookupRec_mem hs.1 hpm

theorem shape_noCycles {s : TaskData} (hs : Shape s) : NoCycles s := by
  intro r hr
  rcases hs.2 r.status with ⟨l, hc⟩
  have hrl : r ∈ l := (mem_chain_iff hc).mpr ⟨hr, rfl⟩
  rcases List.append_of_mem hrl with ⟨l1, l2, rfl⟩
  rcases links_append.mp hc.2.1 with ⟨_, hback⟩
  have hsub : (r :: l2).Sublist (l1 ++ r :: l2) := List.sublist_append_right l1 (r :: l2)
  have hlen : (r :: l2).length < s.length + 1 := by
    have h1 : (r :: l2).length ≤ (l1 ++ r :: l2).length := hsub.length_le
    have h2 : (l1 ++ r :: l2).length = (membersOf s r.status).length := hc.1.length_eq.symm
    have h3 : (membersOf s r.status).length ≤ s.length := (List.filter_sublist s).length_le
    omega
  have hw : walkFrom s (s.length + 1) (nextIdOf (r :: l2) none) = r :: l2 :=
    walk_of_links hs.1 (r :: l2) (lastIdOf none l1) (s.length + 1) hback
      (fun x hx => ((mem_chain_iff hc).mp (hsub.mem hx)).1) hlen
  have : nextIdOf (r :: l2) none = some r.id := rfl
  rw [this] at hw
  rw [hw]
  exact ((chainFor_nodup hs.1 hc).2).sublist (hsub.map _)

theorem membersOf_eq_nil_iff {s : TaskData} {k : String} :
    membersOf s k = [] ↔ ∀ r ∈ s, r.status ≠ k := by
  simp [membersOf, List.filter_eq_nil_iff]

theorem findHead_none_of_empty {s : TaskData} {k : String}
    (h : membersOf s k = []) : findHead s k = none := by
  rcases hf : findHead s k with _ | h0
  · rfl
  · rcases findHead_some hf with ⟨hm, hst, _⟩
    exact absurd hst (membersOf_eq_nil_iff.mp h h0 hm)

theorem shape_covers {s : TaskData} (hs : Shape s) : Covers s := by
  intro k
  rcases hs.2 k with ⟨l, hc⟩
  rcases hl : l with _ | ⟨h0, t⟩
  · subst hl
    have hme : membersOf s k = [] := hc.1.eq_nil
    rw [traverse, findHead_none_of_empty hme, hme]
  · subst hl
    have h0m : h0 ∈ s ∧ h0.status = k := (mem_chain_iff hc).mp (by simp)
    have h0p : h0.prev = none := hc.2.1.1
    rcases findHead_isSome h0m.1 h0m.2 h0p with ⟨h, hf⟩
    rcases findHead_some hf with ⟨hm, hst, hp⟩
    have hhl : h ∈ h0 :: t := (mem_chain_iff hc).mpr ⟨hm, hst⟩
    have : (h0 :: t).head? = some h := links_head_char hc.2.1 hhl hp
    have hh0 : h = h0 := (Option.some.inj this).symm
    have hlen : (h0 :: t).length < s.length + 1 := by
      have h2 : (h0 :: t).length = (membersOf s k).length := hc.1.length_eq.symm
      have h3 : (membersOf s k).length ≤ s.length := (List.filter_sublist s).length_le
      omega
    have hw : walkFrom s (s.length + 1) (nextIdOf (h0 :: t) none) = h0 :: t :=
      walk_of_links hs.1 (h0 :: t) none (s.length + 1) hc.2.1
        (fun x hx => ((mem_chain_iff hc).mp hx).1) hlen
    have hnext : nextIdOf (h0 :: t) none = some h0.id := rfl
    have htr : traverse s k = walkFrom s (s.length + 1) (some h.id) := by
      rw [traverse, hf]
    rw [htr, hh0, ← hnext, hw]
    exact hc.1.symm

theorem shape_fiveInvariants {V : List String} {s : TaskData}
    (hs : Shape s) (hr : RefOk V s) : FiveInvariants V s :=
  ⟨hs.1, shape_uniqueEnds hs, shape_bidirectional hs, shape_noCycles hs,
    shape_covers hs, hr⟩

/-! ### The five invariants imply Shape -/

/-- The pointer at which a fuel-bounded walk stopped: `none` when the walk
reached a `null` tail, otherwise the pointer it ran out of fuel on (or could
not resolve). -/
def walkOut (s : TaskData) : Nat → Option String → Option String
  | 0, io => io
  | _ + 1, none => none
  | fuel + 1, some i =>
      match lookupRec s i with
      | none => some i
      | some r => walkOut s fuel r.next

theorem links_walkFrom {s : TaskData} (h2 : Bidirectional s) :
    ∀ (fuel : Nat) (i : String) (r : TaskType), lookupRec s i = some r →
      links r.prev (walkFrom s (fuel + 1) (some i)) (walkOut s (fuel + 1) (some i)) := by
  intro fuel
  induction fuel with
  | zero =>
      intro i r hl
      have hwf : walkFrom s 1 (some i) = [r] := by simp [walkFrom, hl]
      have hwo : walkOut s 1 (some i) = r.next := by simp [walkOut, hl]
      rw [hwf, hwo]
      exact ⟨rfl, rfl, trivial⟩
  | succ f ih =>
      intro i r hl
      rcases hnx : r.next with _ | j
      · have hwf : walkFrom s (f + 1 + 1) (some i) = [r] := by
          simp [walkFrom, hl, hnx]
        have hwo : walkOut s (f + 1 + 1) (some i) = none := by
          simp [walkOut, hl, hnx]
        rw [hwf, hwo]
        exact ⟨rfl, hnx, trivial⟩
      · rcases (h2 r (lookupRec_some hl).1).1 j hnx with ⟨q, hq, hqp⟩
        have hqid : q.id = j := (lookupRec_some hq).2
        have hwf : walkFrom s (f + 1 + 1) (some i) = r :: walkFrom s (f + 1) (some j) := by
          simp [walkFrom, hl, hnx]
        have hwo : walkOut s (f + 1 + 1) (some i) = walkOut s (f + 1) (some j) := by
          simp [walkOut, hl, hnx]
        rw [hwf, hwo]
        have hrec := ih j q hq
        rw [hqp] at hrec
        refine ⟨rfl, ?_, hrec⟩
        have hq1 : walkFrom s (f + 1) (some j) = q :: walkFrom s f q.next := by
          simp [walkFrom, hq]
        rw [hq1, nextIdOf, hnx]
        simp [hqid]

theorem walkOut_none {s : TaskData} (h2 : Bidirectional s) :
    ∀ (fuel : Nat) (i : String) (r : TaskType), lookupRec s i = some r →
      (walkFrom s fuel (some i)).length < fuel → walkOut s fuel (some i) = none := by
  intro fuel
  induction fuel with
  | zero =>
      intro i r _ hlen
      exact absurd hlen (Nat.not_lt_zero _)
  | succ f ih =>
      intro i r hl hlen
      have hwf : walkFrom s (f + 1) (some i) = r :: walkFrom s f r.next := by
        simp [walkFrom, hl]
      rw [hwf] at hlen
      have hwo : walkOut s (f + 1) (some i) = walkOut s f r.next := by
        simp [walkOut, hl]
      rw [hwo]
      rcases hnx : r.next with _ | j
      · rcases f with _ | f'
        · rw [hnx] at hlen
          simp [walkFrom] at hlen
        · rfl
      · rcases (h2 r (lookupRec_some hl).1).1 j hnx with ⟨q, hq, _⟩
        apply ih j q hq
        rw [hnx] at hlen
        simpa using Nat.lt_of_succ_lt_succ hlen

theorem fiveInvariants_shape {V : List String} {s : TaskData}
    (h : FiveInvariants V s) : Shape s := by
  obtain ⟨hn, h1, h2, _, h4, _⟩ := h
  refine ⟨hn, fun k => ?_⟩
  rcases hme : membersOf s k with _ | ⟨m0, ms⟩
  · exact ⟨[], by rw [hme], trivial, by intro r hr; cases hr⟩
  · have hne : membersOf s k ≠ [] := by rw [hme]; exact List.cons_ne_nil m0 ms
    have hh1 : (headsOf s k).length = 1 := (h1 k hne).1
    have hhne : headsOf s k ≠ [] := by
      intro he
      rw [he] at hh1
      cases hh1
    rcases List.exists_mem_of_ne_nil _ hhne with ⟨h0, hh0⟩
    rcases List.mem_filter.mp hh0 with ⟨hh0m, hh0p⟩
    rcases mem_membersOf.mp hh0m with ⟨hh0s, hh0st⟩
    rcases findHead_isSome hh0s hh0st (by simpa using hh0p) with ⟨hd, hfd⟩
    rcases findHead_some hfd with ⟨hdm, hdst, hdp⟩
    have hlook : lookupRec s hd.id = some hd := lookupRec_mem hn hdm
    have htr : traverse s k = walkFrom s (s.length + 1) (some hd.id) := by
      rw [traverse, hfd]
    have hperm : (walkFrom s (s.length + 1) (some hd.id)).Perm (membersOf s k) := by
      rw [← htr]
      exact h4 k
    have hlen : (walkFrom s (s.length + 1) (some hd.id)).length < s.length + 1 := by
      have := hperm.length_eq
      have hle : (membersOf s k).length ≤ s.length := (List.filter_sublist s).length_le
      omega
    have hlinks := links_walkFrom h2 s.length hd.id hd hlook
    rw [hdp, walkOut_none h2 (s.length + 1) hd.id hd hlook hlen] at hlinks
    refine ⟨walkFrom s (s.length + 1) (some hd.id), hperm.symm, hlinks, ?_⟩
    intro r hr
    exact (mem_membersOf.mp (hperm.subset hr)).2

/-- The existence formulation and the five-invariants formulation agree. -/
theorem fiveInvariants_iff_shape {V : List String} {s : TaskData} :
    FiveInvariants V s ↔ Shape s ∧ RefOk V s :=
  ⟨fun h => ⟨fiveInvariants_shape h, h.2.2.2.2.2⟩,
   fun h => shape_fiveInvariants h.1 h.2⟩

/-! ### Bookkeeping lemmas for the preservation proofs -/

theorem membersOf_cons_pos {x : TaskType} {k : String} (h : x.status = k) (t : TaskData) :
    membersOf (x :: t) k = x :: membersOf t k := by
  rw [membersOf, List.filter_cons_of_pos (by simp [h])]
  rfl

theorem membersOf_cons_neg {x : TaskType} {k : String} (h : x.status ≠ k) (t : TaskData) :
    membersOf (x :: t) k = membersOf t k := by
  rw [membersOf, List.filter_cons_of_neg (by simp [h])]
  rfl

theorem membersOf_cons (x : TaskType) (t : TaskData) (k : String) :
    membersOf (x :: t) k = if x.status = k then x :: membersOf t k else membersOf t k := by
  by_cases h : x.status = k
  · rw [if_pos h, membersOf_cons_pos h]
  · rw [if_neg h, membersOf_cons_neg h]

theorem membersOf_removeRec (s : TaskData) (i k : String) :
    membersOf (removeRec s i) k = removeRec (membersOf s k) i := by
  rw [membersOf, removeRec, List.filter_filter, removeRec, membersOf, List.filter_filter]
  apply List.filter_congr
  intro x _
  exact Bool.and_comm _ _

theorem id_not_in_removeRec (s : TaskData) (i : String) : i ∉ idsOf (removeRec s i) := by
  rw [idsOf_removeRec]
  intro h
  rcases List.mem_filter.mp h with ⟨_, hbad⟩
  simp at hbad

theorem ids_removeRec_subset (s : TaskData) (i : String) {j : String}
    (h : j ∈ idsOf (removeRec s i)) : j ∈ idsOf s := by
  rw [idsOf_removeRec] at h
  exact (List.mem_filter.mp h).1

theorem eq_of_id_eq {s : TaskData} (hn : (idsOf s).Nodup) {x y : TaskType}
    (hx : x ∈ s) (hy : y ∈ s) (he : x.id = y.id) : x = y := by
  have h1 := lookupRec_mem hn hx
  have h2 := lookupRec_mem hn hy
  rw [he] at h1
  rw [h1] at h2
  exact Option.some.inj h2

theorem lookupRec_updateRec (s : TaskData) (i : String) (p : Patch) (j : String) :
    lookupRec (updateRec s i p) j = (lookupRec s j).map (updF i p) := by
  rw [updateRec_eq_map, lookupRec, List.find?_map, lookupRec]
  have hp : ((fun r : TaskType => r.id == j) ∘ updF i p) = (fun r : TaskType => r.id == j) := by
    funext r
    simp [Function.comp, updF_id]
  rw [hp]

theorem lookupRec_removeRec_ne (s : TaskData) {i j : String} (h : j ≠ i) :
    lookupRec (removeRec s i) j = lookupRec s j := by
  induction s with
  | nil => rfl
  | cons a t ih =>
      by_cases ha : a.id = i
      · have hstep : removeRec (a :: t) i = removeRec t i := by
          rw [removeRec, List.filter_cons_of_neg (by simp [ha])]
          rfl
        rw [hstep, ih, lookupRec, lookupRec,
          List.find?_cons_of_neg _ (by simp [ha]; exact fun he => h he.symm)]
      · have hstep : removeRec (a :: t) i = a :: removeRec t i := by
          rw [removeRec, List.filter_cons_of_pos (by simp [ha])]
          rfl
        rw [hstep]
        by_cases hj : a.id = j
        · rw [lookupRec, List.find?_cons_of_pos _ (by simp [hj]),
            lookupRec, List.find?_cons_of_pos _ (by simp [hj])]
        · rw [lookupRec, List.find?_cons_of_neg _ (by simp [hj]),
            lookupRec, List.find?_cons_of_neg _ (by simp [hj])]
          exact ih

theorem updF_status_of_none {i : String} {p : Patch} (h : p.status = none)
    (r : TaskType) : (updF i p r).status = r.status := by
  rw [updF]
  split
  · rw [applyPatch, h]
    rfl
  · rfl

theorem updF_miss {i : String} {p : Patch} {r : TaskType} (h : r.id ≠ i) :
    updF i p r = r := by
  simp [updF, h]

/-- A record present in the store but woven into no chain: with the record
removed, every partition is chained.  This is the intermediate state between
the unlink half and the relink half of a move (section 4.1), and the state
right after a new record is added but before it is linked. -/
def Detached (r : TaskType) (s : TaskData) : Prop :=
  (idsOf s).Nodup ∧ r ∈ s ∧ Chained (removeRec s r.id)

theorem chained_empty_of_no_head {t : TaskData} (hc : Chained t) {k : String}
    (hno : ∀ x ∈ t, ¬(x.status = k ∧ x.prev = none)) : membersOf t k = [] := by
  rcases hc k with ⟨l, hp, hlk, hst⟩
  rcases hl : l with _ | ⟨h0, t0⟩
  · subst hl
    exact hp.eq_nil
  · subst hl
    have h0m : h0 ∈ t := ((mem_chain_iff ⟨hp, hlk, hst⟩).mp (by simp)).1
    exact absurd ⟨hst h0 (by simp), hlk.1⟩ (hno h0 h0m)

theorem removeRec_cons_hit {r : TaskType} {i : String} (h : r.id = i) (s : TaskData) :
    removeRec (r :: s) i = removeRec s i := by
  rw [removeRec, List.filter_cons_of_neg (by simp [h])]
  rfl

theorem removeRec_cons_miss {r : TaskType} {i : String} (h : r.id ≠ i) (s : TaskData) :
    removeRec (r :: s) i = r :: removeRec s i := by
  rw [removeRec, List.filter_cons_of_pos (by simp [h])]
  rfl

theorem mem_ids_of_mem {s : TaskData} {x : TaskType} (h : x ∈ s) : x.id ∈ idsOf s :=
  List.mem_map_of_mem TaskType.id h

theorem updateRec_perm {s : TaskData} {x : TaskType} (hn : (idsOf s).Nodup)
    (hx : x ∈ s) (p : Patch) :
    (updateRec s x.id p).Perm (applyPatch p x :: removeRec s x.id) := by
  have h1 := (perm_cons_removeRec hn hx).map (updF x.id p)
  rw [← updateRec_eq_map, ← updateRec_eq_map, updateRec_cons_hit rfl,
    updateRec_eq_self (id_not_in_removeRec s x.id)] at h1
  exact h1

theorem filter_remove_middle {l1 l2 : List TaskType} {x : TaskType}
    (hnd : ((l1 ++ x :: l2).map TaskType.id).Nodup) :
    (l1 ++ x :: l2).filter (fun y => y.id != x.id) = l1 ++ l2 := by
  rw [List.map_append, List.map_cons, List.nodup_append] at hnd
  obtain ⟨hn1, hn2, hdisj⟩ := hnd
  rw [List.nodup_cons] at hn2
  rw [List.filter_append, List.filter_cons_of_neg (by simp),
    List.filter_eq_self.mpr ?h1, List.filter_eq_self.mpr ?h2]
  case h1 =>
    intro y hy
    simp only [bne_iff_ne, ne_eq, decide_eq_true_eq]
    intro he
    exact hdisj (he ▸ List.mem_map_of_mem TaskType.id hy) (by simp)
  case h2 =>
    intro y hy
    simp only [bne_iff_ne, ne_eq, decide_eq_true_eq]
    intro he
    exact hn2.1 (he ▸ List.mem_map_of_mem TaskType.id hy)

theorem membersPerm_after_remove {sP : TaskData} {k : String} {l1 l2 : List TaskType}
    {x : TaskType} (hlp : (membersOf sP k).Perm (l1 ++ x :: l2))
    (hnd : ((l1 ++ x :: l2).map TaskType.id).Nodup) :
    (membersOf (removeRec sP x.id) k).Perm (l1 ++ l2) := by
  rw [membersOf_removeRec]
  have h1 := hlp.filter (fun y => y.id != x.id)
  rw [filter_remove_middle hnd] at h1
  exact h1

theorem membersOf_removeRec_other {sP : TaskData} {x : TaskType} {k' : String}
    (hnP : (idsOf sP).Nodup) (hx : x ∈ sP) (hxk : x.status ≠ k') :
    membersOf (removeRec sP x.id) k' = membersOf sP k' := by
  rw [membersOf_removeRec]
  apply removeRec_eq_self
  intro hmem
  rcases List.mem_map.mp hmem with ⟨y, hym, hye⟩
  rcases mem_membersOf.mp hym with ⟨hys, hyst⟩
  have hyx : y = x := eq_of_id_eq hnP hys hx hye
  exact hxk (hyx ▸ hyst)

/-! ### Relinking a detached record preserves Shape -/

theorem relinkHead_shape {s : TaskData} {r : TaskType} {k : String} {hd : Option TaskType}
    (hD : Detached r s)
    (hnone : hd = none → membersOf (removeRec s r.id) k = [])
    (hsome : ∀ h, hd = some h → h ∈ removeRec s r.id ∧ h.status = k ∧ h.prev = none) :
    Shape (applyPrims s (relinkHeadOps r k hd)) := by
  obtain ⟨hn, hmem, hch⟩ := hD
  have hperm0 : s.Perm (r :: removeRec s r.id) := perm_cons_removeRec hn hmem
  have hrid : r.id ∉ idsOf (removeRec s r.id) := id_not_in_removeRec s r.id
  have hnP : (idsOf (removeRec s r.id)).Nodup := nodup_removeRec hn
  cases hd with
  | none =>
      have hme : membersOf (removeRec s r.id) k = [] := hnone rfl
      have hup : (applyPrims s (relinkHeadOps r k none)).Perm
          ({ r with
              prev := none
              next := none
              status := k
              previousStatus := r.status } :: removeRec s r.id) := by
        have h1 := hperm0.map (updF r.id
          { prev := some none, next := some none, status := some k,
            previousStatus := some r.status })
        rw [← updateRec_eq_map, ← updateRec_eq_map, updateRec_cons_hit rfl,
          updateRec_eq_self hrid] at h1
        exact h1
      apply shape_perm hup.symm
      constructor
      · rw [idsOf, List.map_cons, List.nodup_cons]
        exact ⟨hrid, hnP⟩
      · intro k'
        by_cases hk : k' = k
        · subst hk
          refine ⟨[{ r with
              prev := none
              next := none
              status := k'
              previousStatus := r.status }], ?_, ⟨rfl, rfl, trivial⟩, ?_⟩
          · rw [membersOf_cons_pos rfl, hme]
          · intro x hx
            rw [List.mem_singleton.mp hx]
        · rcases hch k' with ⟨l, hl1, hl2, hl3⟩
          refine ⟨l, ?_, hl2, hl3⟩
          rw [membersOf_cons_neg (fun he => hk he.symm)]
          exact hl1
  | some h =>
      obtain ⟨hhm, hhst, hhp⟩ := hsome h rfl
      have hhid : h.id ≠ r.id := (mem_removeRec.mp hhm).2
      rcases hch k with ⟨l, hlp, hlk, hls⟩
      have hhl : h ∈ l := (mem_chain_iff ⟨hlp, hlk, hls⟩).mpr ⟨hhm, hhst⟩
      have hhead : l.head? = some h := links_head_char hlk hhl hhp
      rcases hl : l with _ | ⟨h0, lt⟩
      · rw [hl] at hhead
        cases hhead
      · subst hl
        have hh0 : h0 = h := Option.some.inj hhead
        subst hh0
        have hlnd : ((h0 :: lt).map TaskType.id).Nodup :=
          (chainFor_nodup hnP ⟨hlp, hlk, hls⟩).2
        have hltid : h0.id ∉ lt.map TaskType.id := by
          rw [List.map_cons, List.nodup_cons] at hlnd
          exact hlnd.1
        have hpermP : (removeRec s r.id).Perm (h0 :: removeRec (removeRec s r.id) h0.id) :=
          perm_cons_removeRec hnP hhm
        have hh0idP : h0.id ∉ idsOf (removeRec (removeRec s r.id) h0.id) :=
          id_not_in_removeRec _ _
      -- the final store, canonicalized
        have hup : (applyPrims s (relinkHeadOps r k (some h0))).Perm
            ({ r with
                prev := none
                next := some h0.id
                status := k
                previousStatus := r.status } ::
             { h0 with prev := some r.id } :: removeRec (removeRec s r.id) h0.id) := by
          have h1 := hperm0.map (updF r.id
            { prev := some none, next := some (some h0.id), status := some k,
              previousStatus := some r.status })
          rw [← updateRec_eq_map, ← updateRec_eq_map, updateRec_cons_hit rfl,
            updateRec_eq_self hrid] at h1
          have h2 := h1.map (updF h0.id { prev := some (some r.id) })
          rw [← updateRec_eq_map, ← updateRec_eq_map,
            updateRec_cons_miss (by simpa using hhid.symm)] at h2
          refine h2.trans ?_
          refine List.Perm.cons _ ?_
          have h3 := hpermP.map (updF h0.id { prev := some (some r.id) })
          rw [← updateRec_eq_map, ← updateRec_eq_map, updateRec_cons_hit rfl,
            updateRec_eq_self hh0idP] at h3
          exact h3
        apply shape_perm hup.symm
        have hrsPP : r.id ∉ idsOf (removeRec (removeRec s r.id) h0.id) := by
          intro hx
          exact hrid (ids_removeRec_subset _ _ hx)
        constructor
        · rw [idsOf, List.map_cons, List.map_cons, List.nodup_cons, List.nodup_cons]
          refine ⟨?_, hh0idP, nodup_removeRec hnP⟩
          intro hx
          rcases List.mem_cons.mp hx with hx | hx
          · exact hhid hx.symm
          · exact hrsPP hx
        · intro k'
          by_cases hk : k' = k
          · subst hk
            have hms : membersOf (removeRec (removeRec s r.id) h0.id) k' = removeRec
                (membersOf (removeRec s r.id) k') h0.id := membersOf_removeRec _ _ _
            have hmp : (membersOf (removeRec (removeRec s r.id) h0.id) k').Perm lt := by
              rw [hms]
              have := (hlp.filter (fun x => x.id != h0.id))
              rw [show ((h0 :: lt).filter (fun x => x.id != h0.id)) = lt by
                rw [List.filter_cons_of_neg (by simp)]
                apply List.filter_eq_self.mpr
                intro x hx
                simp only [bne_iff_ne, ne_eq, decide_eq_true_eq]
                exact fun he => hltid (he ▸ List.mem_map_of_mem TaskType.id hx)] at this
              exact this
            refine ⟨{ r with
                prev := none
                next := some h0.id
                status := k'
                previousStatus := r.status } ::
              { h0 with prev := some r.id } :: lt, ?_, ?_, ?_⟩
            · rw [membersOf_cons, if_pos rfl, membersOf_cons, if_pos hhst]
              exact (hmp.cons _).cons _
            · exact ⟨rfl, rfl, rfl, hlk.2.1, hlk.2.2⟩
            · intro x hx
              rcases List.mem_cons.mp hx with hx | hx
              · rw [hx]
              · rcases List.mem_cons.mp hx with hx | hx
                · rw [hx]
                  exact hhst
                · exact hls x (List.mem_cons_of_mem h0 hx)
          · rcases hch k' with ⟨l', hl1, hl2, hl3⟩
            have hnomem : ∀ x ∈ membersOf (removeRec s r.id) k', x.id ≠ h0.id := by
              intro x hx he
              rcases mem_membersOf.mp hx with ⟨hxs, hxst⟩
              have hx2 : x = h0 := eq_of_id_eq hnP hxs hhm he
              rw [hx2] at hxst
              exact hk (hxst.symm.trans hhst)
            have hids : h0.id ∉ idsOf (membersOf (removeRec s r.id) k') := by
              intro hx
              rcases List.mem_map.mp hx with ⟨x, hxm, hxe⟩
              exact hnomem x hxm hxe
            refine ⟨l', ?_, hl2, hl3⟩
            rw [membersOf_cons, if_neg (fun he => hk he.symm),
              membersOf_cons, if_neg (fun he => hk (hhst.symm.trans he).symm),
              membersOf_removeRec, removeRec_eq_self hids]
            exact hl1

theorem relinkAfter_shape {s : TaskData} {r ar : TaskType} {k : String}
    (hD : Detached r s) (har : ar ∈ removeRec s r.id) (hast : ar.status = k) :
    Shape (applyPrims s (relinkAfterOps r k ar)) := by
  obtain ⟨hn, hmem, hch⟩ := hD
  have hrid : r.id ∉ idsOf (removeRec s r.id) := id_not_in_removeRec s r.id
  have hnP : (idsOf (removeRec s r.id)).Nodup := nodup_removeRec hn
  have harid : ar.id ≠ r.id := (mem_removeRec.mp har).2
  rcases hch k with ⟨l, hlp, hlk, hls⟩
  have hchainF : ChainFor (removeRec s r.id) k l := ⟨hlp, hlk, hls⟩
  have harl : ar ∈ l := (mem_chain_iff hchainF).mpr ⟨har, hast⟩
  rcases List.append_of_mem harl with ⟨la, lb, rfl⟩
  have hlnd : ((la ++ ar :: lb).map TaskType.id).Nodup := (chainFor_nodup hnP hchainF).2
  rcases links_append.mp hlk with ⟨hfront, hback⟩
  cases lb with
  | nil =>
      have harn : ar.next = none := hback.2.1
      have hops : relinkAfterOps r k ar =
          [.pupd r.id { prev := some (some ar.id), next := some none,
                        status := some k, previousStatus := some r.status },
           .pupd ar.id { next := some (some r.id) }] := by
        simp [relinkAfterOps, harn]
      have h1 := updateRec_perm hn hmem
        { prev := some (some ar.id), next := some none,
          status := some k, previousStatus := some r.status }
      have h2 := h1.map (updF ar.id { next := some (some r.id) })
      rw [← updateRec_eq_map, ← updateRec_eq_map,
        updateRec_cons_miss (by rw [applyPatch_id]; exact fun he => harid he.symm)] at h2
      have h3 := updateRec_perm hnP har { next := some (some r.id) }
      have hup : (applyPrims s (relinkAfterOps r k ar)).Perm
          (applyPatch { prev := some (some ar.id), next := some none,
                        status := some k, previousStatus := some r.status } r ::
           applyPatch { next := some (some r.id) } ar ::
           removeRec (removeRec s r.id) ar.id) := by
        rw [hops]
        exact h2.trans (h3.cons _)
      apply shape_perm hup.symm
      constructor
      · rw [idsOf, List.map_cons, List.map_cons, List.nodup_cons, List.nodup_cons]
        refine ⟨?_, ?_, nodup_removeRec hnP⟩
        · intro hx
          rcases List.mem_cons.mp hx with hx | hx
          · exact harid hx.symm
          · exact hrid (ids_removeRec_subset _ _ hx)
        · exact id_not_in_removeRec _ _
      · intro k'
        by_cases hk : k' = k
        · subst hk
          have hmp : (membersOf (removeRec (removeRec s r.id) ar.id) k').Perm la := by
            have := membersPerm_after_remove hlp hlnd
            rwa [List.append_nil] at this
          refine ⟨la ++ applyPatch { next := some (some r.id) } ar ::
            [applyPatch { prev := some (some ar.id), next := some none,
                          status := some k', previousStatus := some r.status } r], ?_, ?_, ?_⟩
          · rw [membersOf_cons_pos (by exact rfl), membersOf_cons_pos (by exact hast)]
            refine ((hmp.cons _).cons _).trans ?_
            refine List.perm_iff_count.mpr fun x => ?_
            simp only [List.count_append, List.count_cons, List.count_nil]
            omega
          · refine links_append.mpr ⟨hfront, hback.1, rfl, rfl, rfl, trivial⟩
          · intro x hx
            rcases List.mem_append.mp hx with hx | hx
            · exact hls x (List.mem_append_left _ hx)
            · rcases List.mem_cons.mp hx with hx | hx
              · rw [hx]
                exact hast
              · rw [List.mem_singleton.mp hx]
                rfl
        · rcases hch k' with ⟨l', hl1, hl2, hl3⟩
          refine ⟨l', ?_, hl2, hl3⟩
          rw [membersOf_cons_neg (by exact fun he => hk he.symm),
            membersOf_cons_neg (by exact fun he => hk (hast.symm.trans he).symm),
            membersOf_removeRec_other hnP har (fun he => hk (hast.symm.trans he).symm)]
          exact hl1
  | cons n0 lb' =>
      have harn : ar.next = some n0.id := hback.2.1
      have hn0l : n0 ∈ la ++ ar :: n0 :: lb' := by simp
      have hn0P : n0 ∈ removeRec s r.id := ((mem_chain_iff hchainF).mp hn0l).1
      have hn0st : n0.status = k := hls n0 hn0l
      have hn0ar : n0.id ≠ ar.id := by
        rw [List.map_append, List.nodup_append] at hlnd
        have h2 := hlnd.2.1
        rw [List.map_cons, List.nodup_cons] at h2
        intro he
        exact h2.1 (he ▸ (by simp : n0.id ∈ (n0 :: lb').map TaskType.id))
      have hn0r : n0.id ≠ r.id := by
        intro he
        have hin : n0.id ∈ idsOf (removeRec s r.id) := mem_ids_of_mem hn0P
        rw [he] at hin
        exact hrid hin
      have hn0PP : n0 ∈ removeRec (removeRec s r.id) ar.id :=
        mem_removeRec.mpr ⟨hn0P, hn0ar⟩
      have hnPP : (idsOf (removeRec (removeRec s r.id) ar.id)).Nodup :=
        nodup_removeRec hnP
      have hops : relinkAfterOps r k ar =
          [.pupd r.id { prev := some (some ar.id), next := some (some n0.id),
                        status := some k, previousStatus := some r.status },
           .pupd ar.id { next := some (some r.id) },
           .pupd n0.id { prev := some (some r.id) }] := by
        simp [relinkAfterOps, harn]
      have h1 := updateRec_perm hn hmem
        { prev := some (some ar.id), next := some (some n0.id),
          status := some k, previousStatus := some r.status }
      have h2 := h1.map (updF ar.id { next := some (some r.id) })
      rw [← updateRec_eq_map, ← updateRec_eq_map,
        updateRec_cons_miss (by rw [applyPatch_id]; exact fun he => harid he.symm)] at h2
      have h3 := updateRec_perm hnP har { next := some (some r.id) }
      have h4 : (updateRec (updateRec s r.id
          { prev := some (some ar.id), next := some (some n0.id),
            status := some k, previousStatus := some r.status }) ar.id
          { next := some (some r.id) }).Perm
          (applyPatch { prev := some (some ar.id), next := some (some n0.id),
                        status := some k, previousStatus := some r.status } r ::
           applyPatch { next := some (some r.id) } ar ::
           removeRec (removeRec s r.id) ar.id) :=
        h2.trans (h3.cons _)
      have h5 := h4.map (updF n0.id { prev := some (some r.id) })
      rw [← updateRec_eq_map, ← updateRec_eq_map,
        updateRec_cons_miss (by rw [applyPatch_id]; exact fun he => hn0r he.symm),
        updateRec_cons_miss (by rw [applyPatch_id]; exact fun he => hn0ar he.symm)] at h5
      have h6 := updateRec_perm hnPP hn0PP { prev := some (some r.id) }
      have hup : (applyPrims s (relinkAfterOps r k ar)).Perm
          (applyPatch { prev := some (some ar.id), next := some (some n0.id),
                        status := some k, previousStatus := some r.status } r ::
           applyPatch { next := some (some r.id) } ar ::
           applyPatch { prev := some (some r.id) } n0 ::
           removeRec (removeRec (removeRec s r.id) ar.id) n0.id) := by
        rw [hops]
        exact h5.trans ((h6.cons _).cons _)
      apply shape_perm hup.symm
      have hidsPPP : ∀ j, j ∈ idsOf (removeRec (removeRec (removeRec s r.id) ar.id) n0.id) →
          j ∈ idsOf (removeRec s r.id) := by
        intro j hj
        exact ids_removeRec_subset _ _ (ids_removeRec_subset _ _ hj)
      constructor
      · rw [idsOf, List.map_cons, List.map_cons, List.map_cons,
          List.nodup_cons, List.nodup_cons, List.nodup_cons]
        refine ⟨?_, ?_, ?_, nodup_removeRec hnPP⟩
        · intro hx
          rcases List.mem_cons.mp hx with hx | hx
          · exact harid hx.symm
          · rcases List.mem_cons.mp hx with hx | hx
            · exact hn0r hx.symm
            · exact hrid (hidsPPP _ hx)
        · intro hx
          rcases List.mem_cons.mp hx with hx | hx
          · exact hn0ar hx.symm
          · exact id_not_in_removeRec _ _ (ids_removeRec_subset _ _ hx)
        · exact id_not_in_removeRec _ _
      · intro k'
        by_cases hk : k' = k
        · subst hk
          have hmpPP : (membersOf (removeRec (removeRec s r.id) ar.id) k').Perm
              (la ++ n0 :: lb') := membersPerm_after_remove hlp hlnd
          have hndPP : ((la ++ n0 :: lb').map TaskType.id).Nodup := by
            have hsub : (la ++ n0 :: lb').Sublist (la ++ ar :: n0 :: lb') :=
              ((n0 :: lb').sublist_cons_self ar).append_left la
            exact hlnd.sublist (hsub.map _)
          have hmp : (membersOf (removeRec (removeRec (removeRec s r.id) ar.id) n0.id)
              k').Perm (la ++ lb') := membersPerm_after_remove hmpPP hndPP
          refine ⟨la ++ applyPatch { next := some (some r.id) } ar ::
            applyPatch { prev := some (some ar.id), next := some (some n0.id),
                         status := some k', previousStatus := some r.status } r ::
            applyPatch { prev := some (some r.id) } n0 :: lb', ?_, ?_, ?_⟩
          · rw [membersOf_cons_pos (by exact rfl), membersOf_cons_pos (by exact hast),
              membersOf_cons_pos (by exact hn0st)]
            refine (((hmp.cons _).cons _).cons _).trans ?_
            refine List.perm_iff_count.mpr fun x => ?_
            simp only [List.count_append, List.count_cons, List.count_nil]
            omega
          · refine links_append.mpr ⟨hfront, hback.1, rfl, rfl, rfl, rfl,
              hback.2.2.2.1, hback.2.2.2.2⟩
          · intro x hx
            rcases List.mem_append.mp hx with hx | hx
            · exact hls x (List.mem_append_left _ hx)
            · rcases List.mem_cons.mp hx with hx | hx
              · rw [hx]; exact hast
              · rcases List.mem_cons.mp hx with hx | hx
                · rw [hx]
                  rfl
                · rcases List.mem_cons.mp hx with hx | hx
                  · rw [hx]
                    exact hn0st
                  · exact hls x (by simp [hx])
        · rcases hch k' with ⟨l', hl1, hl2, hl3⟩
          refine ⟨l', ?_, hl2, hl3⟩
          rw [membersOf_cons_neg (by exact fun he => hk he.symm),
            membersOf_cons_neg (by exact fun he => hk (hast.symm.trans he).symm),
            membersOf_cons_neg (by exact fun he => hk (hn0st.symm.trans he).symm),
            membersOf_removeRec_other hnPP hn0PP (fun he => hk (hn0st.symm.trans he).symm),
            membersOf_removeRec_other hnP har (fun he => hk (hast.symm.trans he).symm)]
          exact hl1

theorem removeRec_updateRec (X : TaskData) (i : String) (p : Patch) (j : String) :
    removeRec (updateRec X i p) j = updateRec (removeRec X j) i p := by
  induction X with
  | nil => rfl
  | cons a t ih =>
      have e1 : updateRec (a :: t) i p = updF i p a :: updateRec t i p := rfl
      rw [e1]
      by_cases ha : a.id = j
      · rw [removeRec_cons_hit (by rw [updF_id]; exact ha), removeRec_cons_hit ha, ih]
      · rw [removeRec_cons_miss (by rw [updF_id]; exact ha), removeRec_cons_miss ha]
        have e2 : updateRec (a :: removeRec t j) i p =
            updF i p a :: updateRec (removeRec t j) i p := rfl
        rw [e2, ih]

/-! ### Unlinking (splicing out) a record detaches it and preserves the chains -/

theorem splice_detach {s : TaskData} {i : String} {r : TaskType}
    (hs : Shape s) (hl : lookupRec s i = some r) :
    Detached r (applyPrims s (spliceOps r)) ∧
    lookupRec (applyPrims s (spliceOps r)) i = some r := by
  obtain ⟨hrm, hri⟩ := lookupRec_some hl
  have hn := hs.1
  have hnP : (idsOf (removeRec s r.id)).Nodup := nodup_removeRec hn
  rcases hs.2 r.status with ⟨l, hlp, hlk, hls⟩
  have hchainF : ChainFor s r.status l := ⟨hlp, hlk, hls⟩
  have hrl : r ∈ l := (mem_chain_iff hchainF).mpr ⟨hrm, rfl⟩
  rcases List.append_of_mem hrl with ⟨la, lb, rfl⟩
  have hlnd : ((la ++ r :: lb).map TaskType.id).Nodup := (chainFor_nodup hn hchainF).2
  rcases links_append.mp hlk with ⟨hfront, hback⟩
  have hrp : r.prev = lastIdOf none la := hback.1
  have hrn : r.next = nextIdOf lb none := hback.2.1
  rcases hla : la.getLast? with _ | p0
  · -- no predecessor: r is the head of its chain
    have hlae : la = [] := List.getLast?_eq_none_iff.mp hla
    subst hlae
    have hrpn : r.prev = none := hrp
    cases lb with
    | nil =>
        have hrnn : r.next = none := hrn
        have hops : spliceOps r = [] := by simp [spliceOps, hrpn, hrnn]
        have hmid0 : applyPrims s ([] : List PrimOp) = s := rfl
        rw [hops, hmid0]
        refine ⟨⟨hn, hrm, ?_⟩, hl⟩
        intro k'
        by_cases hk : k' = r.status
        · subst hk
          refine ⟨[], ?_, trivial, by intro x hx; cases hx⟩
          exact @membersPerm_after_remove _ _ [] [] _ hlp hlnd
        · rcases hs.2 k' with ⟨l', hl1, hl2, hl3⟩
          refine ⟨l', ?_, hl2, hl3⟩
          rw [membersOf_removeRec_other hn hrm (fun he => hk he.symm)]
          exact hl1
    | cons n0 lb' =>
        have hrnn : r.next = some n0.id := hrn
        have hn0l : n0 ∈ [] ++ r :: n0 :: lb' := by simp
        have hn0m : n0 ∈ s := ((mem_chain_iff hchainF).mp hn0l).1
        have hn0st : n0.status = r.status := hls n0 hn0l
        have hn0r : n0.id ≠ r.id := by
          rw [List.nil_append, List.map_cons, List.nodup_cons] at hlnd
          intro he
          exact hlnd.1 (he ▸ (by simp : n0.id ∈ (n0 :: lb').map TaskType.id))
        have hn0P : n0 ∈ removeRec s r.id := mem_removeRec.mpr ⟨hn0m, hn0r⟩
        have hops : spliceOps r = [.pupd n0.id { prev := some none }] := by
          simp [spliceOps, hrpn, hrnn]
        rw [hops]
        have hmid : applyPrims s [PrimOp.pupd n0.id { prev := some none }] =
            updateRec s n0.id { prev := some none } := rfl
        rw [hmid]
        have hrmem : r ∈ updateRec s n0.id { prev := some none } := by
          rw [updateRec_eq_map]
          have : updF n0.id { prev := some none } r = r := updF_miss (fun he => hn0r he.symm)
          rw [← this]
          exact List.mem_map_of_mem _ hrm
        refine ⟨⟨?_, hrmem, ?_⟩, ?_⟩
        · rw [idsOf_updateRec]
          exact hn
        · rw [removeRec_updateRec]
          apply chained_perm (updateRec_perm hnP hn0P { prev := some none }).symm
          intro k'
          by_cases hk : k' = r.status
          · subst hk
            have hm1 : (membersOf (removeRec s r.id) r.status).Perm (n0 :: lb') :=
              @membersPerm_after_remove _ _ [] _ _ hlp hlnd
            have hnd1 : ((n0 :: lb').map TaskType.id).Nodup := by
              rw [List.nil_append, List.map_cons, List.nodup_cons] at hlnd
              exact hlnd.2
            have hm2 : (membersOf (removeRec (removeRec s r.id) n0.id) r.status).Perm lb' :=
              @membersPerm_after_remove _ _ [] _ _ hm1 hnd1
            refine ⟨applyPatch { prev := some none } n0 :: lb', ?_, ?_, ?_⟩
            · rw [membersOf_cons_pos (by exact hn0st)]
              exact hm2.cons _
            · exact ⟨rfl, hback.2.2.2.1, hback.2.2.2.2⟩
            · intro x hx
              rcases List.mem_cons.mp hx with hx | hx
              · rw [hx]
                exact hn0st
              · exact hls x (by simp [hx])
          · rcases hs.2 k' with ⟨l', hl1, hl2, hl3⟩
            refine ⟨l', ?_, hl2, hl3⟩
            rw [membersOf_cons_neg (by exact fun he => hk (hn0st.symm.trans he).symm),
              membersOf_removeRec_other hnP hn0P (fun he => hk (hn0st.symm.trans he).symm),
              membersOf_removeRec_other hn hrm (fun he => hk he.symm)]
            exact hl1
        · rw [lookupRec_updateRec, hl, Option.map_some',
            updF_miss (fun he => hn0r he.symm)]
  · -- r has a predecessor p0
    rcases List.getLast?_eq_some_iff.mp hla with ⟨la', rfl⟩
    have hrpp : r.prev = some p0.id := by
      rw [hrp, lastIdOf, hla]
    have hp0l : p0 ∈ (la' ++ [p0]) ++ r :: lb := by simp
    have hp0m : p0 ∈ s := ((mem_chain_iff hchainF).mp hp0l).1
    have hp0st : p0.status = r.status := hls p0 hp0l
    have hndparts : ((la' ++ [p0]).map TaskType.id).Nodup ∧
        ((r :: lb).map TaskType.id).Nodup ∧
        (∀ x ∈ (la' ++ [p0]).map TaskType.id, x ∉ (r :: lb).map TaskType.id) := by
      rw [List.map_append, List.nodup_append] at hlnd
      exact ⟨hlnd.1, hlnd.2.1, fun x hx hy => hlnd.2.2 hx hy⟩
    have hp0r : p0.id ≠ r.id := by
      intro he
      exact hndparts.2.2 p0.id (by simp) (by simp [he])
    have hp0P : p0 ∈ removeRec s r.id := mem_removeRec.mpr ⟨hp0m, hp0r⟩
    cases lb with
    | nil =>
        have hrnn : r.next = none := hrn
        have hops : spliceOps r = [.pupd p0.id { next := some none }] := by
          simp [spliceOps, hrpp, hrnn]
        rw [hops]
        have hmid : applyPrims s [PrimOp.pupd p0.id { next := some none }] =
            updateRec s p0.id { next := some none } := rfl
        rw [hmid]
        have hrmem : r ∈ updateRec s p0.id { next := some none } := by
          rw [updateRec_eq_map]
          have : updF p0.id { next := some none } r = r := updF_miss (fun he => hp0r he.symm)
          rw [← this]
          exact List.mem_map_of_mem _ hrm
        refine ⟨⟨?_, hrmem, ?_⟩, ?_⟩
        · rw [idsOf_updateRec]
          exact hn
        · rw [removeRec_updateRec]
          apply chained_perm (updateRec_perm hnP hp0P { next := some none }).symm
          intro k'
          by_cases hk : k' = r.status
          · subst hk
            have hm1 : (membersOf (removeRec s r.id) r.status).Perm (la' ++ [p0]) := by
              have h := @membersPerm_after_remove _ _ _ [] _ hlp hlnd
              rwa [List.append_nil] at h
            have hm2 : (membersOf (removeRec (removeRec s r.id) p0.id) r.status).Perm la' := by
              have h := @membersPerm_after_remove _ _ _ [] _ hm1 hndparts.1
              rwa [List.append_nil] at h
            refine ⟨la' ++ [applyPatch { next := some none } p0], ?_, ?_, ?_⟩
            · rw [membersOf_cons_pos (by exact hp0st)]
              refine (hm2.cons _).trans ?_
              exact @List.perm_append_comm _ [applyPatch { next := some none } p0] _
            · rcases links_append.mp hfront with ⟨hfr1, hfr2⟩
              exact links_append.mpr ⟨hfr1, hfr2.1, rfl, trivial⟩
            · intro x hx
              rcases List.mem_append.mp hx with hx | hx
              · exact hls x (by simp [hx])
              · rw [List.mem_singleton.mp hx]
                exact hp0st
          · rcases hs.2 k' with ⟨l', hl1, hl2, hl3⟩
            refine ⟨l', ?_, hl2, hl3⟩
            rw [membersOf_cons_neg (by exact fun he => hk (hp0st.symm.trans he).symm),
              membersOf_removeRec_other hnP hp0P (fun he => hk (hp0st.symm.trans he).symm),
              membersOf_removeRec_other hn hrm (fun he => hk he.symm)]
            exact hl1
        · rw [lookupRec_updateRec, hl, Option.map_some',
            updF_miss (fun he => hp0r he.symm)]
    | cons n0 lb' =>
        have hrnn : r.next = some n0.id := hrn
        have hn0l : n0 ∈ (la' ++ [p0]) ++ r :: n0 :: lb' := by simp
        have hn0m : n0 ∈ s := ((mem_chain_iff hchainF).mp hn0l).1
        have hn0st : n0.status = r.status := hls n0 hn0l
        have hn0r : n0.id ≠ r.id := by
          have h2 := hndparts.2.1
          rw [List.map_cons, List.nodup_cons] at h2
          intro he
          exact h2.1 (he ▸ (by simp : n0.id ∈ (n0 :: lb').map TaskType.id))
        have hn0P : n0 ∈ removeRec s r.id := mem_removeRec.mpr ⟨hn0m, hn0r⟩
        have hp0n0 : p0.id ≠ n0.id := by
          intro he
          exact hndparts.2.2 p0.id (by simp) (by simp [he])
        have hn0PP : n0 ∈ removeRec (removeRec s r.id) p0.id :=
          mem_removeRec.mpr ⟨hn0P, fun he => hp0n0 he.symm⟩
        have hnPP : (idsOf (removeRec (removeRec s r.id) p0.id)).Nodup :=
          nodup_removeRec hnP
        have hops : spliceOps r = [.pupd p0.id { next := some (some n0.id) },
            .pupd n0.id { prev := some (some p0.id) }] := by
          simp [spliceOps, hrpp, hrnn]
        rw [hops]
        have hmid : applyPrims s [PrimOp.pupd p0.id { next := some (some n0.id) },
            PrimOp.pupd n0.id { prev := some (some p0.id) }] =
            updateRec (updateRec s p0.id { next := some (some n0.id) }) n0.id
              { prev := some (some p0.id) } := rfl
        rw [hmid]
        have hrmem : r ∈ updateRec (updateRec s p0.id { next := some (some n0.id) }) n0.id
            { prev := some (some p0.id) } := by
          rw [updateRec_eq_map, updateRec_eq_map]
          have e1 : updF n0.id { prev := some (some p0.id) }
              (updF p0.id { next := some (some n0.id) } r) = r := by
            rw [updF_miss (fun he => hp0r he.symm), updF_miss (fun he => hn0r he.symm)]
          rw [← e1]
          exact List.mem_map_of_mem _ (List.mem_map_of_mem _ hrm)
        refine ⟨⟨?_, hrmem, ?_⟩, ?_⟩
        · rw [idsOf_updateRec, idsOf_updateRec]
          exact hn
        · rw [removeRec_updateRec, removeRec_updateRec]
          have hc1 := updateRec_perm hnP hp0P { next := some (some n0.id) }
          have hc2 := hc1.map (updF n0.id { prev := some (some p0.id) })
          rw [← updateRec_eq_map, ← updateRec_eq_map,
            updateRec_cons_miss (by rw [applyPatch_id]; exact hp0n0)] at hc2
          have hc3 := updateRec_perm hnPP hn0PP { prev := some (some p0.id) }
          have hc4 := hc2.trans (hc3.cons _)
          apply chained_perm hc4.symm
          intro k'
          by_cases hk : k' = r.status
          · subst hk
            have hm1 : (membersOf (removeRec s r.id) r.status).Perm
                ((la' ++ [p0]) ++ n0 :: lb') := membersPerm_after_remove hlp hlnd
            have hm1' : (membersOf (removeRec s r.id) r.status).Perm
                (la' ++ p0 :: n0 :: lb') := by
              rw [List.append_assoc] at hm1
              exact hm1
            have hnd1 : ((la' ++ p0 :: n0 :: lb').map TaskType.id).Nodup := by
              have hsub : (la' ++ p0 :: n0 :: lb').Sublist
                  ((la' ++ [p0]) ++ r :: n0 :: lb') := by
                rw [List.append_assoc]
                refine List.Sublist.append_left ?_ la'
                exact ((n0 :: lb').sublist_cons_self r).cons₂ p0
              exact hlnd.sublist (hsub.map _)
            have hm2 : (membersOf (removeRec (removeRec s r.id) p0.id) r.status).Perm
                (la' ++ n0 :: lb') := membersPerm_after_remove hm1' hnd1
            have hnd2 : ((la' ++ n0 :: lb').map TaskType.id).Nodup := by
              have hsub : (la' ++ n0 :: lb').Sublist (la' ++ p0 :: n0 :: lb') :=
                ((n0 :: lb').sublist_cons_self p0).append_left la'
              exact hnd1.sublist (hsub.map _)
            have hm3 : (membersOf (removeRec (removeRec (removeRec s r.id) p0.id) n0.id)
                r.status).Perm (la' ++ lb') := membersPerm_after_remove hm2 hnd2
            refine ⟨la' ++ applyPatch { next := some (some n0.id) } p0 ::
              applyPatch { prev := some (some p0.id) } n0 :: lb', ?_, ?_, ?_⟩
            · rw [membersOf_cons_pos (by exact hp0st), membersOf_cons_pos (by exact hn0st)]
              refine ((hm3.cons _).cons _).trans ?_
              refine List.perm_iff_count.mpr fun x => ?_
              simp only [List.count_append, List.count_cons, List.count_nil]
              omega
            · rcases links_append.mp hfront with ⟨hfr1, hfr2⟩
              refine links_append.mpr ⟨hfr1, hfr2.1, rfl, rfl,
                hback.2.2.2.1, hback.2.2.2.2⟩
            · intro x hx
              rcases List.mem_append.mp hx with hx | hx
              · exact hls x (by simp [hx])
              · rcases List.mem_cons.mp hx with hx | hx
                · rw [hx]
                  exact hp0st
                · rcases List.mem_cons.mp hx with hx | hx
                  · rw [hx]
                    exact hn0st
                  · exact hls x (by simp [hx])
          · rcases hs.2 k' with ⟨l', hl1, hl2, hl3⟩
            refine ⟨l', ?_, hl2, hl3⟩
            rw [membersOf_cons_neg (by exact fun he => hk (hp0st.symm.trans he).symm),
              membersOf_cons_neg (by exact fun he => hk (hn0st.symm.trans he).symm),
              membersOf_removeRec_other hnPP hn0PP (fun he => hk (hn0st.symm.trans he).symm),
              membersOf_removeRec_other hnP hp0P (fun he => hk (hp0st.symm.trans he).symm),
              membersOf_removeRec_other hn hrm (fun he => hk he.symm)]
            exact hl1
        · rw [lookupRec_updateRec, lookupRec_updateRec, hl, Option.map_some',
            updF_miss (fun he => hp0r he.symm), Option.map_some',
            updF_miss (fun he => hn0r he.symm)]

/-! ### Assembling the per-intent preservation theorem -/

theorem detach_remove_shape {r : TaskType} {s : TaskData} (hD : Detached r s) :
    Shape (removeRec s r.id) := ⟨nodup_removeRec hD.1, hD.2.2⟩

theorem applyPrims_append (s : TaskData) (xs ys : List PrimOp) :
    applyPrims s (xs ++ ys) = applyPrims (applyPrims s xs) ys := by
  rw [applyPrims, applyPrims, applyPrims, List.foldl_append]

theorem findHead_none_char {t : TaskData} {r : TaskType} (hD : Detached r t) {k : String}
    (hf : findHead t k = none) : membersOf (removeRec t r.id) k = [] := by
  apply chained_empty_of_no_head hD.2.2
  intro x hx hc
  have hxm : x ∈ t := (mem_removeRec.mp hx).1
  have := List.find?_eq_none.mp hf x hxm
  simp [hc.1, hc.2] at this

theorem findHead_some_char {t : TaskData} {r : TaskType} (hD : Detached r t) {k : String}
    {h : TaskType} (hf : findHead t k = some h)
    (hguard : ¬(r.status = k ∧ r.prev = none)) :
    h ∈ removeRec t r.id ∧ h.status = k ∧ h.prev = none := by
  rcases findHead_some hf with ⟨hm, hst, hp⟩
  refine ⟨mem_removeRec.mpr ⟨hm, ?_⟩, hst, hp⟩
  intro he
  have hhr : h = r := eq_of_id_eq hD.1 hm hD.2.1 he
  rw [hhr] at hst hp
  exact hguard ⟨hst, hp⟩

theorem lookup_applyPrims_pupd_none :
    ∀ (ops : List PrimOp) (s : TaskData) (j : String),
      (∀ op ∈ ops, match op with | PrimOp.pupd _ p => p.status = none | _ => False) →
      ∃ f : TaskType → TaskType, lookupRec (applyPrims s ops) j = (lookupRec s j).map f ∧
        ∀ x, (f x).status = x.status ∧ (f x).id = x.id := by
  intro ops
  induction ops with
  | nil =>
      intro s j _
      exact ⟨id, by simp [applyPrims], fun x => ⟨rfl, rfl⟩⟩
  | cons op rest ih =>
      intro s j hok
      rcases op with x | ⟨i', p⟩ | i'
      · exact absurd (hok _ (List.mem_cons_self _ _)) (by simp)
      · have hps : p.status = none := hok _ (List.mem_cons_self _ _)
        have hstep : applyPrims s (PrimOp.pupd i' p :: rest) =
            applyPrims (updateRec s i' p) rest := rfl
        rcases ih (updateRec s i' p) j
            (fun o ho => hok o (List.mem_cons_of_mem _ ho)) with ⟨f, hf, hprop⟩
        refine ⟨f ∘ updF i' p, ?_, ?_⟩
        · rw [hstep, hf, lookupRec_updateRec, Option.map_map]
        · intro x
          constructor
          · rw [Function.comp_apply, (hprop _).1, updF_status_of_none hps]
          · rw [Function.comp_apply, (hprop _).2, updF_id]
      · exact absurd (hok _ (List.mem_cons_self _ _)) (by simp)

theorem spliceOps_pupd_none (r : TaskType) :
    ∀ op ∈ spliceOps r, match op with | PrimOp.pupd _ p => p.status = none | _ => False := by
  intro op hop
  rcases hp : r.prev with _ | p0 <;> rcases hq : r.next with _ | n0 <;>
    simp [spliceOps, hp, hq] at hop <;>
    (rcases hop with rfl | rfl <;> exact rfl)

theorem refok_applyPrims {V : List String} {ops : List PrimOp} :
    ∀ {s : TaskData}, RefOk V s →
      (∀ op ∈ ops, match op with
        | PrimOp.padd x => x.status ∈ V
        | PrimOp.pupd _ p => ∀ k', p.status = some k' → k' ∈ V
        | PrimOp.pdel _ => True) → RefOk V (applyPrims s ops) := by
  induction ops with
  | nil =>
      intro s hr _
      exact hr
  | cons op rest ih =>
      intro s hr hok
      have hstep : applyPrims s (op :: rest) = applyPrims (applyPrim s op) rest := rfl
      rw [hstep]
      refine ih ?_ (fun o ho => hok o (List.mem_cons_of_mem _ ho))
      rcases op with x | ⟨i', p⟩ | i'
      · intro y hy
        rcases List.mem_cons.mp hy with hy | hy
        · rw [hy]
          exact hok _ (List.mem_cons_self _ _)
        · exact hr y hy
      · show RefOk V (updateRec s i' p)
        intro y hy
        rw [updateRec_eq_map] at hy
        rcases List.mem_map.mp hy with ⟨z, hzm, rfl⟩
        rw [updF]
        split
        · rcases hps : p.status with _ | k'
          · rw [applyPatch, hps]
            exact hr z hzm
          · rw [applyPatch, hps]
            exact hok _ (List.mem_cons_self _ _) k' hps
        · exact hr z hzm
      · intro y hy
        exact hr y (List.mem_of_mem_filter hy)

theorem ops_ok_of_pupd_none {V : List String} {ops : List PrimOp}
    (h : ∀ op ∈ ops, match op with | PrimOp.pupd _ p => p.status = none | _ => False) :
    ∀ op ∈ ops, match op with
      | PrimOp.padd x => x.status ∈ V
      | PrimOp.pupd _ p => ∀ k', p.status = some k' → k' ∈ V
      | PrimOp.pdel _ => True := by
  intro op hop
  have hh := h op hop
  rcases op with x | ⟨i, p⟩ | i
  · exact absurd hh (by simp)
  · intro k' hk'
    rw [hh] at hk'
    simp at hk'
  · trivial

theorem relinkHeadOps_ok {V : List String} {r : TaskType} {k : String}
    {hd : Option TaskType} (hkV : k ∈ V) :
    ∀ op ∈ relinkHeadOps r k hd, match op with
      | PrimOp.padd x => x.status ∈ V
      | PrimOp.pupd _ p => ∀ k', p.status = some k' → k' ∈ V
      | PrimOp.pdel _ => True := by
  intro op hop
  cases hd with
  | none =>
      simp [relinkHeadOps] at hop
      subst hop
      intro k' hk'
      rw [← Option.some.inj hk']
      exact hkV
  | some h =>
      simp [relinkHeadOps] at hop
      rcases hop with rfl | rfl
      · intro k' hk'
        rw [← Option.some.inj hk']
        exact hkV
      · intro k' hk'
        simp at hk'

theorem relinkAfterOps_ok {V : List String} {r ar : TaskType} {k : String} (hkV : k ∈ V) :
    ∀ op ∈ relinkAfterOps r k ar, match op with
      | PrimOp.padd x => x.status ∈ V
      | PrimOp.pupd _ p => ∀ k', p.status = some k' → k' ∈ V
      | PrimOp.pdel _ => True := by
  intro op hop
  rcases hq : ar.next with _ | nid
  · simp [relinkAfterOps, hq] at hop
    rcases hop with rfl | rfl
    · intro k' hk'
      rw [← Option.some.inj hk']
      exact hkV
    · intro k' hk'
      simp at hk'
  · simp [relinkAfterOps, hq] at hop
    rcases hop with rfl | rfl | rfl
    · intro k' hk'
      rw [← Option.some.inj hk']
      exact hkV
    · intro k' hk'
      simp at hk'
    · intro k' hk'
      simp at hk'

theorem nextIdOf_map {f : TaskType → TaskType} (hid : ∀ x, (f x).id = x.id)
    (l : List TaskType) (q : Option String) : nextIdOf (l.map f) q = nextIdOf l q := by
  cases l with
  | nil => rfl
  | cons a t =>
      show some (f a).id = some a.id
      rw [hid]

theorem links_map_pres {f : TaskType → TaskType} (hid : ∀ x, (f x).id = x.id)
    (hprev : ∀ x, (f x).prev = x.prev) (hnext : ∀ x, (f x).next = x.next) :
    ∀ (l : List TaskType) (p q : Option String), links p l q → links p (l.map f) q := by
  intro l
  induction l with
  | nil =>
      intro p q _
      trivial
  | cons a t ih =>
      intro p q hl
      refine ⟨?_, ?_, ?_⟩
      · rw [hprev]
        exact hl.1
      · rw [hnext, nextIdOf_map hid]
        exact hl.2.1
      · rw [hid]
        exact ih (some a.id) q hl.2.2

theorem membersOf_map_status_pres {s : TaskData} {f : TaskType → TaskType}
    (hf : ∀ x, (f x).status = x.status) (k : String) :
    membersOf (s.map f) k = (membersOf s k).map f := by
  induction s with
  | nil => rfl
  | cons a t ih =>
      rw [List.map_cons]
      by_cases h : a.status = k
      · rw [membersOf_cons_pos (by rw [hf]; exact h), membersOf_cons_pos h, List.map_cons, ih]
      · rw [membersOf_cons_neg (by rw [hf]; exact h), membersOf_cons_neg h, ih]

theorem shape_map_pres {s : TaskData} {f : TaskType → TaskType}
    (hid : ∀ x, (f x).id = x.id) (hprev : ∀ x, (f x).prev = x.prev)
    (hnext : ∀ x, (f x).next = x.next) (hst : ∀ x, (f x).status = x.status)
    (hs : Shape s) : Shape (s.map f) := by
  constructor
  · rw [idsOf, List.map_map]
    have : (TaskType.id ∘ f) = TaskType.id := funext hid
    rw [this]
    exact hs.1
  · intro k
    rcases hs.2 k with ⟨l, hl1, hl2, hl3⟩
    refine ⟨l.map f, ?_, links_map_pres hid hprev hnext l none none hl2, ?_⟩
    · rw [membersOf_map_status_pres hst]
      exact hl1.map f
    · intro x hx
      rcases List.mem_map.mp hx with ⟨y, hym, rfl⟩
      rw [hst]
      exact hl3 y hym

/-- Well-formedness of a gesture against the current working copy: the
operations the user-gesture collaborator of section 6 can issue.  Identifiers
resolve, explicit neighbours are records of the target partition distinct from
the moved record, added records carry unused identifiers, and referenced
partition keys are valid. -/
def WfIntent (V : List String) (s : TaskData) : Intent → Prop
  | .iadd nr afterId =>
      nr.id ∉ idsOf s ∧ nr.status ∈ V ∧
      (∀ a, afterId = some a → ∃ ar, lookupRec s a = some ar ∧ ar.status = nr.status)
  | .imove i k afterId =>
      (∃ r, lookupRec s i = some r) ∧ k ∈ V ∧
      (∀ a, afterId = some a → a ≠ i ∧ ∃ ar, lookupRec s a = some ar ∧ ar.status = k)
  | .idel i => ∃ r, lookupRec s i = some r
  | .iupd _ _ => True

theorem applyIntent_shape {V : List String} {s : TaskData} {g : Intent}
    (hs : Shape s) (hr : RefOk V s) (hw : WfIntent V s g) :
    Shape (applyIntent s g) ∧ RefOk V (applyIntent s g) := by
  cases g with
  | iadd nr afterId =>
      obtain ⟨hfresh, hstV, hafter⟩ := hw
      have hrem : removeRec (nr :: s) nr.id = s := by
        rw [removeRec_cons_hit rfl, removeRec_eq_self hfresh]
      have hD : Detached nr (nr :: s) := by
        refine ⟨?_, List.mem_cons_self _ _, ?_⟩
        · rw [idsOf, List.map_cons, List.nodup_cons]
          exact ⟨hfresh, hs.1⟩
        · rw [hrem]
          exact hs.2
      have hraddV : RefOk V (nr :: s) := by
        intro y hy
        rcases List.mem_cons.mp hy with hy | hy
        · rw [hy]
          exact hstV
        · exact hr y hy
      cases afterId with
      | none =>
          have happly : applyIntent s (.iadd nr none) =
              applyPrims (nr :: s) (relinkHeadOps nr nr.status (findHead s nr.status)) := rfl
          rw [happly]
          constructor
          · apply relinkHead_shape hD
            · intro hf
              rw [hrem]
              apply chained_empty_of_no_head hs.2
              intro x hx hc
              have := List.find?_eq_none.mp hf x hx
              simp [hc.1, hc.2] at this
            · intro h hf
              rw [hrem]
              exact findHead_some hf
          · exact refok_applyPrims hraddV (relinkHeadOps_ok hstV)
      | some a =>
          rcases hafter a rfl with ⟨ar, hlook0, hst0⟩
          have hops : compileIntent s (.iadd nr (some a)) =
              PrimOp.padd nr :: relinkAfterOps nr nr.status ar := by
            simp only [compileIntent, addOps, hlook0]
          have happly : applyIntent s (.iadd nr (some a)) =
              applyPrims (nr :: s) (relinkAfterOps nr nr.status ar) := by
            rw [applyIntent, hops]
            rfl
          rw [happly]
          have harP : ar ∈ removeRec (nr :: s) nr.id := by
            rw [hrem]
            exact (lookupRec_some hlook0).1
          constructor
          · exact relinkAfter_shape hD harP hst0
          · exact refok_applyPrims hraddV (relinkAfterOps_ok hstV)
  | imove i k afterId =>
      obtain ⟨⟨r, hlook⟩, hkV, hafter⟩ := hw
      have hri : r.id = i := (lookupRec_some hlook).2
      by_cases hguard : k = r.status ∧ afterId = r.prev
      · have hops : compileIntent s (.imove i k afterId) = [] := by
          simp only [compileIntent, moveOps, hlook]
          rw [if_pos hguard]
        have happly : applyIntent s (.imove i k afterId) = s := by
          rw [applyIntent, hops]
          rfl
        rw [happly]
        exact ⟨hs, hr⟩
      · have hsd := splice_detach hs hlook
        have hmidrefok : RefOk V (applyPrims s (spliceOps r)) :=
          refok_applyPrims hr (ops_ok_of_pupd_none (spliceOps_pupd_none r))
        cases afterId with
        | none =>
            have hops : compileIntent s (.imove i k none) =
                spliceOps r ++ relinkHeadOps r k
                  (findHead (applyPrims s (spliceOps r)) k) := by
              simp only [compileIntent, moveOps, hlook]
              rw [if_neg hguard]
            have happly : applyIntent s (.imove i k none) =
                applyPrims (applyPrims s (spliceOps r))
                  (relinkHeadOps r k (findHead (applyPrims s (spliceOps r)) k)) := by
              rw [applyIntent, hops, applyPrims_append]
            rw [happly]
            constructor
            · apply relinkHead_shape hsd.1
              · intro hf
                exact findHead_none_char hsd.1 hf
              · intro h hf
                apply findHead_some_char hsd.1 hf
                intro hc
                exact hguard ⟨hc.1.symm, hc.2.symm⟩
            · exact refok_applyPrims hmidrefok (relinkHeadOps_ok hkV)
        | some a =>
            rcases hafter a rfl with ⟨hai, ar0, hlook0, hst0⟩
            rcases lookup_applyPrims_pupd_none (spliceOps r) s a
              (spliceOps_pupd_none r) with ⟨f, hfl, hfp⟩
            have hlookmid : lookupRec (applyPrims s (spliceOps r)) a = some (f ar0) := by
              rw [hfl, hlook0, Option.map_some']
            have hops : compileIntent s (.imove i k (some a)) =
                spliceOps r ++ relinkAfterOps r k (f ar0) := by
              simp only [compileIntent, moveOps, hlook]
              rw [if_neg hguard]
              simp only [hlookmid]
            have happly : applyIntent s (.imove i k (some a)) =
                applyPrims (applyPrims s (spliceOps r)) (relinkAfterOps r k (f ar0)) := by
              rw [applyIntent, hops, applyPrims_append]
            rw [happly]
            have hfarid : (f ar0).id = a := by
              rw [(hfp ar0).2]
              exact (lookupRec_some hlook0).2
            have harP : f ar0 ∈ removeRec (applyPrims s (spliceOps r)) r.id := by
              refine mem_removeRec.mpr ⟨(lookupRec_some hlookmid).1, ?_⟩
              rw [hfarid, hri]
              exact hai
            have hfast : (f ar0).status = k := by
              rw [(hfp ar0).1]
              exact hst0
            constructor
            · exact relinkAfter_shape hsd.1 harP hfast
            · exact refok_applyPrims hmidrefok (relinkAfterOps_ok hkV)
  | idel i =>
      obtain ⟨r, hlook⟩ := hw
      have hri : r.id = i := (lookupRec_some hlook).2
      have hops : compileIntent s (.idel i) = spliceOps r ++ [PrimOp.pdel i] := by
        simp only [compileIntent, deleteOps, hlook]
      have happly : applyIntent s (.idel i) =
          removeRec (applyPrims s (spliceOps r)) i := by
        rw [applyIntent, hops, applyPrims_append]
        rfl
      rw [happly]
      have hsd := splice_detach hs hlook
      constructor
      · rw [← hri]
        exact detach_remove_shape hsd.1
      · intro y hy
        exact refok_applyPrims hr (ops_ok_of_pupd_none (spliceOps_pupd_none r)) y
          (List.mem_of_mem_filter hy)
  | iupd i t =>
      have happly : applyIntent s (.iupd i t) = updateRec s i { title := some t } := rfl
      rw [happly, updateRec_eq_map]
      have hid : ∀ x, (updF i { title := some t } x).id = x.id := updF_id i _
      have hprev : ∀ x, (updF i { title := some t } x).prev = x.prev := by
        intro x
        rw [updF]
        split <;> rfl
      have hnext : ∀ x, (updF i { title := some t } x).next = x.next := by
        intro x
        rw [updF]
        split <;> rfl
      have hst : ∀ x, (updF i { title := some t } x).status = x.status := by
        intro x
        rw [updF]
        split <;> rfl
      constructor
      · exact shape_map_pres hid hprev hnext hst hs
      · intro y hy
        rcases List.mem_map.mp hy with ⟨z, hzm, rfl⟩
        rw [hst]
        exact hr z hzm

/-- Validity of a gesture sequence, each gesture checked against the working
copy it is applied to. -/
def ValidSeq (V : List String) : TaskData → List Intent → Prop
  | _, [] => True
  | s, g :: rest => WfIntent V s g ∧ ValidSeq V (applyIntent s g) rest

theorem applySeq_shape {V : List String} {gs : List Intent} :
    ∀ {s : TaskData}, Shape s → RefOk V s → ValidSeq V s gs →
      Shape (applySeq s gs) ∧ RefOk V (applySeq s gs) := by
  induction gs with
  | nil =>
      intro s hs hr _
      exact ⟨hs, hr⟩
  | cons g rest ih =>
      intro s hs hr hv
      have hstep := applyIntent_shape hs hr hv.1
      exact ih hstep.1 hstep.2 hv.2

/-! ### Decidable checkers bridging to the invariants -/

/-- The partition keys present in the store. -/
def keysOf (s : TaskData) : List String := (s.map TaskType.status).dedup

/-- Decidable bidirectional-consistency check for one record. -/
def bidirB (s : TaskData) (r : TaskType) : Bool :=
  (match r.next with
   | none => true
   | some j =>
       match lookupRec s j with
       | none => false
       | some q => q.prev == some r.id) &&
  (match r.prev with
   | none => true
   | some j =>
       match lookupRec s j with
       | none => false
       | some q => q.next == some r.id)

/-- Decidable check of the five invariants (used to discharge hypotheses on
concrete working copies). -/
def fiveInvariantsB (V : List String) (s : TaskData) : Bool :=
  decide ((idsOf s).Nodup) &&
  (keysOf s).all (fun k => (headsOf s k).length == 1 && (tailsOf s k).length == 1) &&
  s.all (bidirB s) &&
  s.all (fun r => decide (((walkFrom s (s.length + 1) (some r.id)).map TaskType.id).Nodup)) &&
  (keysOf s).all (fun k => decide ((traverse s k).Perm (membersOf s k))) &&
  s.all (fun r => decide (r.status ∈ V))

theorem mem_keysOf {s : TaskData} {k : String} :
    k ∈ keysOf s ↔ ∃ r ∈ s, r.status = k := by
  rw [keysOf, List.mem_dedup, List.mem_map]

theorem members_empty_of_not_key {s : TaskData} {k : String}
    (h : k ∉ keysOf s) : membersOf s k = [] := by
  rw [membersOf_eq_nil_iff]
  intro r hr he
  exact h (mem_keysOf.mpr ⟨r, hr, he⟩)

theorem fiveInvariantsB_sound {V : List String} {s : TaskData}
    (h : fiveInvariantsB V s = true) : FiveInvariants V s := by
  rw [fiveInvariantsB] at h
  simp only [Bool.and_eq_true, List.all_eq_true, decide_eq_true_eq, beq_iff_eq] at h
  obtain ⟨⟨⟨⟨⟨hnd, hends⟩, hbi⟩, hnc⟩, hcov⟩, href⟩ := h
  refine ⟨hnd, ?_, ?_, ?_, ?_, ?_⟩
  · intro k hne
    have hk : k ∈ keysOf s := by
      by_contra hnk
      exact hne (members_empty_of_not_key hnk)
    exact hends k hk
  · intro r hr
    have := hbi r hr
    rw [bidirB, Bool.and_eq_true] at this
    constructor
    · intro j hj
      have h1 := this.1
      simp only [hj] at h1
      rcases hq : lookupRec s j with _ | q
      · simp only [hq] at h1
        exact Bool.noConfusion h1
      · simp only [hq, beq_iff_eq] at h1
        exact ⟨q, rfl, h1⟩
    · intro j hj
      have h1 := this.2
      simp only [hj] at h1
      rcases hq : lookupRec s j with _ | q
      · simp only [hq] at h1
        exact Bool.noConfusion h1
      · simp only [hq, beq_iff_eq] at h1
        exact ⟨q, rfl, h1⟩
  · intro r hr
    exact hnc r hr
  · intro k
    by_cases hk : k ∈ keysOf s
    · exact hcov k hk
    · have hme := members_empty_of_not_key hk
      rw [traverse, findHead_none_of_empty hme, hme]
  · intro r hr
    exact href r hr

/-- Decidable check of gesture validity. -/
def wfIntentB (V : List String) (s : TaskData) : Intent → Bool
  | .iadd nr afterId =>
      decide (nr.id ∉ idsOf s) && decide (nr.status ∈ V) &&
      (match afterId with
       | none => true
       | some a =>
           match lookupRec s a with
           | none => false
           | some ar => ar.status == nr.status)
  | .imove i k afterId =>
      (lookupRec s i).isSome && decide (k ∈ V) &&
      (match afterId with
       | none => true
       | some a =>
           decide (a ≠ i) &&
           (match lookupRec s a with
            | none => false
            | some ar => ar.status == k))
  | .idel i => (lookupRec s i).isSome
  | .iupd _ _ => true

theorem wfIntentB_sound {V : List String} {s : TaskData} {g : Intent}
    (h : wfIntentB V s g = true) : WfIntent V s g := by
  cases g with
  | iadd nr afterId =>
      simp only [wfIntentB, Bool.and_eq_true] at h
      refine ⟨by simpa using h.1.1, by simpa using h.1.2, ?_⟩
      intro a ha
      have h2 := h.2
      simp only [ha] at h2
      rcases hq : lookupRec s a with _ | ar
      · simp only [hq] at h2
        exact Bool.noConfusion h2
      · simp only [hq, beq_iff_eq] at h2
        exact ⟨ar, rfl, h2⟩
  | imove i k afterId =>
      simp only [wfIntentB, Bool.and_eq_true] at h
      refine ⟨?_, by simpa using h.1.2, ?_⟩
      · rcases Option.isSome_iff_exists.mp h.1.1 with ⟨r, hr⟩
        exact ⟨r, hr⟩
      · intro a ha
        have h2 := h.2
        simp only [ha, Bool.and_eq_true] at h2
        refine ⟨by simpa using h2.1, ?_⟩
        have h3 := h2.2
        rcases hq : lookupRec s a with _ | ar
        · simp only [hq] at h3
          exact Bool.noConfusion h3
        · simp only [hq, beq_iff_eq] at h3
          exact ⟨ar, rfl, h3⟩
  | idel i =>
      simp only [wfIntentB] at h
      rcases Option.isSome_iff_exists.mp h with ⟨r, hr⟩
      exact ⟨r, hr⟩
  | iupd i t => trivial

/-- Decidable check of sequence validity. -/
def validSeqB (V : List String) : TaskData → List Intent → Bool
  | _, [] => true
  | s, g :: rest => wfIntentB V s g && validSeqB V (applyIntent s g) rest

theorem validSeqB_sound {V : List String} {gs : List Intent} :
    ∀ {s : TaskData}, validSeqB V s gs = true → ValidSeq V s gs := by
  induction gs with
  | nil =>
      intro s _
      trivial
  | cons g rest ih =>
      intro s h
      rw [validSeqB, Bool.and_eq_true] at h
      exact ⟨wfIntentB_sound h.1, ih h.2⟩

/-- C1.  For a working copy satisfying the five chain invariants, any
sequence of add, move and delete (and payload-update) gestures, applied in
order through the bulk-transaction apply path, yields a working copy that
again satisfies all five invariants on every partition. -/
theorem c1_invariants_preserved (V : List String) (s : TaskData) (gs : List Intent)
    (h5 : FiveInvariants V s) (hv : ValidSeq V s gs) :
    FiveInvariants V (applySeq s gs) := by
  rcases fiveInvariants_iff_shape.mp h5 with ⟨hs, hr⟩
  rcases applySeq_shape hs hr hv with ⟨hs2, hr2⟩
  exact shape_fiveInvariants hs2 hr2

/-! ### Concrete scenario data (section 8 end-to-end scenario) -/

/-- First task of the chain T1 -> T2 -> T3 in partition colA. -/
def taskT1 : TaskType :=
  { id := "T1", title := "task one", status := "colA", previousStatus := "colA",
    prev := none, next := some "T2" }

/-- Second task of the chain. -/
def taskT2 : TaskType :=
  { id := "T2", title := "task two", status := "colA", previousStatus := "colA",
    prev := some "T1", next := some "T3" }

/-- Third task of the chain (tail). -/
def taskT3 : TaskType :=
  { id := "T3", title := "task three", status := "colA", previousStatus := "colA",
    prev := some "T2", next := none }

/-- Working copy with partition colA holding T1 -> T2 -> T3 and colB empty. -/
def storeC5 : TaskData := [taskT1, taskT2, taskT3]

theorem c1_witness :
    FiveInvariants ["colA", "colB"] storeC5 ∧
    ValidSeq ["colA", "colB"] storeC5
      [.imove "T3" "colB" none, .idel "T2",
       .iadd { id := "T4", title := "t4", status := "colB", previousStatus := "colB",
               prev := none, next := none } none] ∧
    FiveInvariants ["colA", "colB"] (applySeq storeC5
      [.imove "T3" "colB" none, .idel "T2",
       .iadd { id := "T4", title := "t4", status := "colB", previousStatus := "colB",
               prev := none, next := none } none]) :=
  ⟨fiveInvariantsB_sound (by decide), validSeqB_sound (by decide),
   c1_invariants_preserved _ _ _ (fiveInvariantsB_sound (by decide))
     (validSeqB_sound (by decide))⟩

/-- C2.  Adding a record with no explicit neighbour inserts it at the head of
its partition: the new record gets `prev = null` and `next` = the previous
head's identifier (or null for an empty partition), and the previous head's
`prev` is updated to the new record's identifier.  The first conjunct
identifies `findHead` with "the previous head": under the invariants any head
record of the partition is the one `findHead` returns. -/
theorem c2_add_at_head (V : List String) (s : TaskData) (nr : TaskType)
    (h5 : FiveInvariants V s) (hfresh : nr.id ∉ idsOf s) :
    (∀ H, H ∈ s → H.status = nr.status → H.prev = none →
      findHead s nr.status = some H) ∧
    (match findHead s nr.status with
     | none =>
         lookupRec (applyIntent s (.iadd nr none)) nr.id =
           some { nr with prev := none, next := none, previousStatus := nr.status }
     | some H =>
         lookupRec (applyIntent s (.iadd nr none)) nr.id =
           some { nr with prev := none, next := some H.id,
                          previousStatus := nr.status } ∧
         lookupRec (applyIntent s (.iadd nr none)) H.id =
           some { H with prev := some nr.id }) := by
  have hs : Shape s := (fiveInvariants_iff_shape.mp h5).1
  constructor
  · intro H hHm hHst hHp
    rcases findHead_isSome hHm hHst hHp with ⟨h, hf⟩
    rcases findHead_some hf with ⟨hm, hst, hp⟩
    rcases hs.2 nr.status with ⟨l, hl1, hl2, hl3⟩
    have hHl : H ∈ l := (mem_chain_iff ⟨hl1, hl2, hl3⟩).mpr ⟨hHm, hHst⟩
    have hhl : h ∈ l := (mem_chain_iff ⟨hl1, hl2, hl3⟩).mpr ⟨hm, hst⟩
    have e1 := links_head_char hl2 hHl hHp
    have e2 := links_head_char hl2 hhl hp
    rw [e2] at e1
    rw [hf, Option.some.inj e1]
  · rcases hf : findHead s nr.status with _ | H
    · have happly : applyIntent s (.iadd nr none) =
          updateRec (nr :: s)
            nr.id { prev := some none, next := some none,
                    status := some nr.status, previousStatus := some nr.status } := by
        rw [applyIntent]
        simp only [compileIntent, addOps, hf, relinkHeadOps]
        rfl
      rw [happly, updateRec_cons_hit rfl, updateRec_eq_self hfresh, lookupRec,
        List.find?_cons_of_pos _ (by simp [applyPatch_id])]
      rfl
    · rcases findHead_some hf with ⟨hHm, hHst, hHp⟩
      have hHne : H.id ≠ nr.id := by
        intro he
        exact hfresh (he ▸ mem_ids_of_mem hHm)
      have happly : applyIntent s (.iadd nr none) =
          updateRec (updateRec (nr :: s)
            nr.id { prev := some none, next := some (some H.id),
                    status := some nr.status, previousStatus := some nr.status })
            H.id { prev := some (some nr.id) } := by
        rw [applyIntent]
        simp only [compileIntent, addOps, hf, relinkHeadOps]
        rfl
      have e1 : updF nr.id
          { prev := some none, next := some (some H.id),
            status := some nr.status, previousStatus := some nr.status } nr =
          { nr with prev := none, next := some H.id, previousStatus := nr.status } := by
        rw [updF, if_pos (by simp)]
        rfl
      have e2 : updF H.id { prev := some (some nr.id) }
          { nr with prev := none, next := some H.id, previousStatus := nr.status } =
          { nr with prev := none, next := some H.id, previousStatus := nr.status } :=
        updF_miss (fun he => hHne (he : nr.id = H.id).symm)
      have e3 : updF nr.id
          { prev := some none, next := some (some H.id),
            status := some nr.status, previousStatus := some nr.status } H = H :=
        updF_miss hHne
      have e4 : updF H.id { prev := some (some nr.id) } H =
          { H with prev := some nr.id } := by
        rw [updF, if_pos (by simp)]
        rfl
      constructor
      · rw [happly, lookupRec_updateRec, lookupRec_updateRec, lookupRec,
          List.find?_cons_of_pos _ (by simp), Option.map_some', e1, Option.map_some', e2]
      · rw [happly, lookupRec_updateRec, lookupRec_updateRec, lookupRec,
          List.find?_cons_of_neg _ (by simp; exact fun he => hHne he.symm), ← lookupRec,
          lookupRec_mem hs.1 hHm, Option.map_some', e3, Option.map_some', e4]

theorem c2_witness :
    FiveInvariants ["colA", "colB"] storeC5 ∧
    ("T0" : String) ∉ idsOf storeC5 ∧
    (∀ H, H ∈ storeC5 → H.status = "colA" → H.prev = none →
      findHead storeC5 "colA" = some H) ∧
    (match findHead storeC5 "colA" with
     | none =>
         lookupRec (applyIntent storeC5 (.iadd
           { id := "T0", title := "t0", status := "colA", previousStatus := "colA",
             prev := none, next := none } none)) "T0" =
           some { id := "T0", title := "t0", status := "colA", previousStatus := "colA",
                  prev := none, next := none }
     | some H =>
         lookupRec (applyIntent storeC5 (.iadd
           { id := "T0", title := "t0", status := "colA", previousStatus := "colA",
             prev := none, next := none } none)) "T0" =
           some { id := "T0", title := "t0", status := "colA", previousStatus := "colA",
                  prev := none, next := some H.id } ∧
         lookupRec (applyIntent storeC5 (.iadd
           { id := "T0", title := "t0", status := "colA", previousStatus := "colA",
             prev := none, next := none } none)) H.id =
           some { H with prev := some "T0" }) := by
  refine ⟨fiveInvariantsB_sound (by decide), by decide, ?_⟩
  exact c2_add_at_head ["colA", "colB"] storeC5
    { id := "T0", title := "t0", status := "colA", previousStatus := "colA",
      prev := none, next := none }
    (fiveInvariantsB_sound (by decide)) (by decide)

/-- C5.  Moving T3 from the chain T1 -> T2 -> T3 of partition colA into the
empty partition colB with no explicit neighbour leaves colA as T1 -> T2 with
T2's `next` null, puts T3 alone in colB with null `prev` and `next`, sets
T3's `status` to colB and T3's `previousStatus` to colA, the key held before
the move. -/
theorem c5_move_to_empty_partition :
    lookupRec (applyIntent storeC5 (.imove "T3" "colB" none)) "T1" = some taskT1 ∧
    lookupRec (applyIntent storeC5 (.imove "T3" "colB" none)) "T2" =
      some { taskT2 with next := none } ∧
    lookupRec (applyIntent storeC5 (.imove "T3" "colB" none)) "T3" =
      some { taskT3 with status := "colB", previousStatus := "colA",
                         prev := none, next := none } ∧
    traverse (applyIntent storeC5 (.imove "T3" "colB" none)) "colA" =
      [taskT1, { taskT2 with next := none }] ∧
    traverse (applyIntent storeC5 (.imove "T3" "colB" none)) "colB" =
      [{ taskT3 with status := "colB", previousStatus := "colA",
                     prev := none, next := none }] := by
  decide

/-- C6.  A self-move — dropping a record at the position it already occupies,
i.e. moving it to its own partition after its current predecessor — produces
an empty operation list, and applying it leaves the working copy literally
unchanged. -/
theorem c6_self_move_noop (s : TaskData) (i : String) (r : TaskType)
    (hl : lookupRec s i = some r) :
    moveOps s i r.status r.prev = [] ∧ applyIntent s (.imove i r.status r.prev) = s := by
  have hm : moveOps s i r.status r.prev = [] := by
    simp [moveOps, hl]
  refine ⟨hm, ?_⟩
  rw [applyIntent]
  simp only [compileIntent]
  rw [hm]
  rfl

theorem c6_witness :
    moveOps storeC5 "T2" taskT2.status taskT2.prev = [] ∧
    applyIntent storeC5 (.imove "T2" taskT2.status taskT2.prev) = storeC5 :=
  c6_self_move_noop storeC5 "T2" taskT2 (by decide)

/-! ### Bulk-transaction backup and rollback (sections 4.2, 4.3) -/

/-- The identifiers touched by an operation list: the direct targets of its
operations.  Relinked chain neighbours appear in the compiled lists as update
operations of their own, so they are direct targets here too. -/
def touchedIds (ops : List PrimOp) : List String := ops.map PrimOp.target

/-- Modelled from the spec: the flat operation list of one gesture (section
4.2) — each intent is compiled against the working copy as mutated by the
intents before it, and the per-intent operation lists are appended in order
(the builder does not deduplicate). -/
def txOps (s : TaskData) : List Intent → List PrimOp
  | [] => []
  | g :: gs => compileIntent s g ++ txOps (applyIntent s g) gs

/-- One step of backup collection: record the pre-transaction image of a
touched identifier, first touch wins; an identifier the transaction creates
has no pre-transaction record, recorded as `none`. -/
def backupStep (s : TaskData) (b : List (String × Option TaskType)) (i : String) :
    List (String × Option TaskType) :=
  if (b.find? (fun e => e.1 == i)).isSome then b else b ++ [(i, lookupRec s i)]

/-- Modelled from the spec: `createBackup` of the missing `utils/utils.ts`
(section 4.2) — one compensating before-image per touched record, keyed by
identifier, taken from the pre-transaction working copy (section 9: a
transaction owns the operation list and a compensating before image for each
touched record). -/
def createBackup (s : TaskData) (ops : List PrimOp) : List (String × Option TaskType) :=
  (touchedIds ops).foldl (backupStep s) []

/-- Replay one before-image: overwrite the record's fields if it is present,
reinsert it if the transaction deleted it, and delete it if the transaction
created it. -/
def putBack (s : TaskData) (i : String) : Option TaskType → TaskData
  | some r =>
      if (lookupRec s i).isSome then s.map (fun x => if x.id == i then r else x)
      else r :: s
  | none => removeRec s i

/-- Modelled from the spec: `restoreBackup` of the missing `utils/utils.ts`
(section 4.3) — rollback replays the before-images over the working copy. -/
def restoreBackup (s : TaskData) (b : List (String × Option TaskType)) : TaskData :=
  b.foldl (fun s e => putBack s e.1 e.2) s

theorem lookupRec_map_replace {r : TaskType} {i : String} (hr : r.id = i) (s : TaskData) :
    lookupRec (s.map (fun x => if x.id == i then r else x)) i =
      if (lookupRec s i).isSome then some r else none := by
  induction s with
  | nil => rfl
  | cons a t ih =>
      by_cases ha : a.id = i
      · have h1 : lookupRec (a :: t) i = some a := by
          rw [lookupRec, List.find?_cons_of_pos _ (by simpa using ha)]
        rw [List.map_cons, if_pos (by simpa using ha), lookupRec,
          List.find?_cons_of_pos _ (by simpa using hr), h1]
        rfl
      · have h1 : lookupRec (a :: t) i = lookupRec t i := by
          rw [lookupRec, List.find?_cons_of_neg _ (by simpa using ha)]
          rfl
        rw [List.map_cons, if_neg (by simpa using ha), lookupRec,
          List.find?_cons_of_neg _ (by simpa using ha), ← lookupRec, ih, h1]

theorem lookupRec_map_replace_ne {r : TaskType} {i j : String} (hr : r.id = i) (hne : j ≠ i)
    (s : TaskData) :
    lookupRec (s.map (fun x => if x.id == i then r else x)) j = lookupRec s j := by
  induction s with
  | nil => rfl
  | cons a t ih =>
      by_cases ha : a.id = i
      · have h1 : lookupRec (a :: t) j = lookupRec t j := by
          rw [lookupRec, List.find?_cons_of_neg _ (by simp only [ha, beq_iff_eq]; exact fun h => hne h.symm)]
          rfl
        rw [List.map_cons, if_pos (by simpa using ha), lookupRec,
          List.find?_cons_of_neg _ (by simp only [hr, beq_iff_eq]; exact fun h => hne h.symm),
          ← lookupRec, ih, h1]
      · by_cases haj : a.id = j
        · rw [List.map_cons, if_neg (by simpa using ha), lookupRec,
            List.find?_cons_of_pos _ (by simpa using haj), lookupRec,
            List.find?_cons_of_pos _ (by simpa using haj)]
        · have h1 : lookupRec (a :: t) j = lookupRec t j := by
            rw [lookupRec, List.find?_cons_of_neg _ (by simpa using haj)]
            rfl
          rw [List.map_cons, if_neg (by simpa using ha), lookupRec,
            List.find?_cons_of_neg _ (by simpa using haj), ← lookupRec, ih, h1]

theorem putBack_lookup_self {ob : Option TaskType} {i : String}
    (hr : ∀ x, ob = some x → x.id = i) (s : TaskData) :
    lookupRec (putBack s i ob) i = ob := by
  match ob with
  | none =>
      simp only [putBack]
      refine List.find?_eq_none.mpr ?_
      intro x hx
      have hxne : x.id ≠ i := by
        have := List.of_mem_filter hx
        simpa using this
      simpa using hxne
  | some r =>
      simp only [putBack]
      by_cases hp : (lookupRec s i).isSome = true
      · rw [if_pos hp, lookupRec_map_replace (hr r rfl) s, if_pos hp]
      · rw [if_neg hp, lookupRec, List.find?_cons_of_pos _ (by simpa using hr r rfl)]

theorem putBack_lookup_other {ob : Option TaskType} {i j : String} (hne : j ≠ i)
    (hr : ∀ x, ob = some x → x.id = i) (s : TaskData) :
    lookupRec (putBack s i ob) j = lookupRec s j := by
  match ob with
  | none =>
      simp only [putBack]
      exact lookupRec_removeRec_ne s hne
  | some r =>
      simp only [putBack]
      by_cases hp : (lookupRec s i).isSome = true
      · rw [if_pos hp]
        exact lookupRec_map_replace_ne (hr r rfl) hne s
      · rw [if_neg hp, lookupRec,
          List.find?_cons_of_neg _ (by simp only [hr r rfl, beq_iff_eq]; exact fun h => hne h.symm)]
        rfl

theorem restoreBackup_preserves {j : String} :
    ∀ (b : List (String × Option TaskType)) (s : TaskData),
      (∀ e ∈ b, e.1 ≠ j) →
      (∀ e ∈ b, ∀ x, e.2 = some x → x.id = e.1) →
      lookupRec (restoreBackup s b) j = lookupRec s j
  | [], _, _, _ => rfl
  | e :: b, s, hj, hr => by
      have h1 : restoreBackup s (e :: b) = restoreBackup (putBack s e.1 e.2) b := rfl
      rw [h1, restoreBackup_preserves b (putBack s e.1 e.2)
            (fun x hx => hj x (List.mem_cons_of_mem _ hx))
            (fun x hx => hr x (List.mem_cons_of_mem _ hx))]
      exact putBack_lookup_other (fun h => hj e (List.mem_cons_self _ _) h.symm)
        (hr e (List.mem_cons_self _ _)) s

theorem restoreBackup_agrees {i : String} {ob : Option TaskType} :
    ∀ (b : List (String × Option TaskType)) (s : TaskData),
      ((b.map Prod.fst).Nodup) →
      (∀ e ∈ b, ∀ x, e.2 = some x → x.id = e.1) →
      (i, ob) ∈ b →
      lookupRec (restoreBackup s b) i = ob
  | [], _, _, _, hm => absurd hm (List.not_mem_nil _)
  | e :: b, s, hnd, hr, hm => by
      have h1 : restoreBackup s (e :: b) = restoreBackup (putBack s e.1 e.2) b := rfl
      rw [List.map_cons] at hnd
      rcases List.mem_cons.mp hm with he | hm'
      · have hi1 : e.1 = i := by rw [← he]
        have hi2 : e.2 = ob := by rw [← he]
        have hnotin : ∀ e' ∈ b, e'.1 ≠ i := by
          intro e' he' hcon
          refine (List.nodup_cons.mp hnd).1 ?_
          rw [hi1, ← hcon]
          exact List.mem_map_of_mem _ he'
        rw [h1, restoreBackup_preserves b (putBack s e.1 e.2) hnotin
              (fun x hx => hr x (List.mem_cons_of_mem _ hx)), ← hi1, ← hi2]
        exact putBack_lookup_self (hr e (List.mem_cons_self _ _)) s
      · rw [h1]
        exact restoreBackup_agrees b (putBack s e.1 e.2) (List.nodup_cons.mp hnd).2
          (fun x hx => hr x (List.mem_cons_of_mem _ hx)) hm'

theorem backupStep_entries {s : TaskData} {b : List (String × Option TaskType)} {i : String}
    (h : ∀ e ∈ b, e.2 = lookupRec s e.1) :
    ∀ e ∈ backupStep s b i, e.2 = lookupRec s e.1 := by
  intro e he
  by_cases hc : (b.find? (fun e => e.1 == i)).isSome = true
  · rw [backupStep, if_pos hc] at he
    exact h e he
  · rw [backupStep, if_neg hc] at he
    rcases List.mem_append.mp he with h1 | h2
    · exact h e h1
    · have he2 : e = (i, lookupRec s i) := by simpa using h2
      rw [he2]

theorem backupStep_nodup {s : TaskData} {b : List (String × Option TaskType)} {i : String}
    (h : (b.map Prod.fst).Nodup) : ((backupStep s b i).map Prod.fst).Nodup := by
  by_cases hc : (b.find? (fun e => e.1 == i)).isSome = true
  · rw [backupStep, if_pos hc]
    exact h
  · rw [backupStep, if_neg hc, List.map_append]
    refine List.Nodup.append h (List.nodup_singleton _) ?_
    intro x hx hx2
    have hxi : x = i := by simpa using hx2
    subst hxi
    rcases List.mem_map.mp hx with ⟨e, he, hfst⟩
    refine hc ?_
    rw [List.find?_isSome]
    exact ⟨e, he, by simp [hfst]⟩

theorem backupStep_mem {s : TaskData} {b : List (String × Option TaskType)} {i j : String} :
    j ∈ (backupStep s b i).map Prod.fst ↔ j ∈ b.map Prod.fst ∨ j = i := by
  by_cases hc : (b.find? (fun e => e.1 == i)).isSome = true
  · rw [backupStep, if_pos hc]
    constructor
    · exact Or.inl
    · rintro (h | rfl)
      · exact h
      · rw [List.find?_isSome] at hc
        rcases hc with ⟨e, he, hp⟩
        have hej : e.1 = j := by simpa using hp
        rw [← hej]
        exact List.mem_map_of_mem _ he
  · rw [backupStep, if_neg hc, List.map_append, List.mem_append]
    simp

theorem backupFold_entries {s : TaskData} :
    ∀ (l : List String) (b : List (String × Option TaskType)),
      (∀ e ∈ b, e.2 = lookupRec s e.1) →
      ∀ e ∈ l.foldl (backupStep s) b, e.2 = lookupRec s e.1
  | [], _, h => h
  | i :: l, b, h => by
      have h1 : (i :: l).foldl (backupStep s) b = l.foldl (backupStep s) (backupStep s b i) := rfl
      rw [h1]
      exact backupFold_entries l (backupStep s b i) (backupStep_entries h)

theorem backupFold_nodup {s : TaskData} :
    ∀ (l : List String) (b : List (String × Option TaskType)),
      (b.map Prod.fst).Nodup →
      ((l.foldl (backupStep s) b).map Prod.fst).Nodup
  | [], _, h => h
  | i :: l, b, h => backupFold_nodup l (backupStep s b i) (backupStep_nodup h)

theorem backupFold_mem {s : TaskData} {j : String} :
    ∀ (l : List String) (b : List (String × Option TaskType)),
      (j ∈ (l.foldl (backupStep s) b).map Prod.fst ↔ j ∈ b.map Prod.fst ∨ j ∈ l)
  | [], b => by simp
  | i :: l, b => by
      have h1 : (i :: l).foldl (backupStep s) b = l.foldl (backupStep s) (backupStep s b i) := rfl
      rw [h1, backupFold_mem l (backupStep s b i), backupStep_mem]
      constructor
      · rintro ((h | rfl) | h)
        · exact Or.inl h
        · exact Or.inr (List.mem_cons_self _ _)
        · exact Or.inr (List.mem_cons_of_mem _ h)
      · rintro (h | h)
        · exact Or.inl (Or.inl h)
        · rcases List.mem_cons.mp h with rfl | h2
          · exact Or.inl (Or.inr rfl)
          · exact Or.inr h2

theorem createBackup_entries {s : TaskData} {ops : List PrimOp} :
    ∀ e ∈ createBackup s ops, e.2 = lookupRec s e.1 :=
  backupFold_entries (touchedIds ops) [] (by intro e he; cases he)

theorem createBackup_nodup {s : TaskData} {ops : List PrimOp} :
    ((createBackup s ops).map Prod.fst).Nodup :=
  backupFold_nodup (touchedIds ops) [] List.nodup_nil

theorem createBackup_mem {s : TaskData} {ops : List PrimOp} {j : String} :
    j ∈ (createBackup s ops).map Prod.fst ↔ j ∈ touchedIds ops := by
  rw [createBackup, backupFold_mem]
  simp

theorem createBackup_lookup {s : TaskData} {ops : List PrimOp} {i : String}
    (h : i ∈ touchedIds ops) : (i, lookupRec s i) ∈ createBackup s ops := by
  rcases List.mem_map.mp (createBackup_mem.mpr h) with ⟨e, he, hfst⟩
  have h2 := createBackup_entries e he
  have he2 : e = (i, lookupRec s i) := by
    rw [Prod.ext_iff]
    exact ⟨hfst, by rw [h2, hfst]⟩
  rw [← he2]
  exact he

theorem createBackup_ids_ok {s : TaskData} {ops : List PrimOp} :
    ∀ e ∈ createBackup s ops, ∀ x, e.2 = some x → x.id = e.1 := by
  intro e he x hx
  have h2 := createBackup_entries e he
  have h3 : lookupRec s e.1 = some x := by
    rw [← h2]
    exact hx
  exact (lookupRec_some h3).2

/-- C3.  Apply-then-rollback round-trip: for every working copy and every
gesture (intent list) compiled into a bulk transaction whose backup is taken
before the optimistic apply, applying the operation list and then immediately
replaying the backup restores, for every touched record, exactly its
pre-apply field values — the record looked up in the restored state equals
the record looked up in the pre-apply state, field for field, including the
`prev`/`next` ordering pointers. -/
theorem c3_apply_rollback_roundtrip (s : TaskData) (gs : List Intent) (i : String)
    (hi : i ∈ touchedIds (txOps s gs)) :
    lookupRec (restoreBackup (applyPrims s (txOps s gs)) (createBackup s (txOps s gs))) i =
      lookupRec s i :=
  restoreBackup_agrees (createBackup s (txOps s gs)) (applyPrims s (txOps s gs))
    createBackup_nodup createBackup_ids_ok (createBackup_lookup hi)

theorem c3_witness :
    ("T2" : String) ∈ touchedIds (txOps storeC5 [.imove "T3" "colB" none]) ∧
    lookupRec
        (restoreBackup (applyPrims storeC5 (txOps storeC5 [.imove "T3" "colB" none]))
          (createBackup storeC5 (txOps storeC5 [.imove "T3" "colB" none]))) "T2" =
      lookupRec storeC5 "T2" :=
  ⟨by decide, c3_apply_rollback_roundtrip storeC5 [.imove "T3" "colB" none] "T2" (by decide)⟩

/-- C8.  The backup of a bulk transaction is scoped to the records the
transaction touches, not a whole-store snapshot: an identifier has a backup
entry exactly when it is a direct target of one of the transaction's
operations (relinked neighbours included, as they receive update operations
of their own); every entry holds the pre-transaction image of its record; and
replaying the backup over any working copy leaves every untouched record's
fields unchanged. -/
theorem c8_backup_scoped_to_touched (s : TaskData) (gs : List Intent) (s' : TaskData)
    (i j : String) (hj : j ∉ touchedIds (txOps s gs)) :
    (i ∈ (createBackup s (txOps s gs)).map Prod.fst ↔ i ∈ touchedIds (txOps s gs)) ∧
    (∀ e ∈ createBackup s (txOps s gs), e.2 = lookupRec s e.1) ∧
    lookupRec (restoreBackup s' (createBackup s (txOps s gs))) j = lookupRec s' j := by
  refine ⟨createBackup_mem, createBackup_entries, ?_⟩
  refine restoreBackup_preserves _ s' ?_ createBackup_ids_ok
  intro e he hcon
  have hm : e.1 ∈ (createBackup s (txOps s gs)).map Prod.fst := List.mem_map_of_mem _ he
  rw [hcon] at hm
  exact hj (createBackup_mem.mp hm)

theorem c8_witness :
    ("T1" : String) ∉ touchedIds (txOps storeC5 [.imove "T3" "colB" none]) ∧
    ((("T2" : String) ∈
        (createBackup storeC5 (txOps storeC5 [.imove "T3" "colB" none])).map Prod.fst ↔
        ("T2" : String) ∈ touchedIds (txOps storeC5 [.imove "T3" "colB" none])) ∧
      (∀ e ∈ createBackup storeC5 (txOps storeC5 [.imove "T3" "colB" none]),
        e.2 = lookupRec storeC5 e.1) ∧
      lookupRec
          (restoreBackup storeC5
            (createBackup storeC5 (txOps storeC5 [.imove "T3" "colB" none]))) "T1" =
        lookupRec storeC5 "T1") :=
  ⟨by decide,
    c8_backup_scoped_to_touched storeC5 [.imove "T3" "colB" none] storeC5 "T2" "T1" (by decide)⟩

/-! ### The chain integrity validator (`data/analyze_chains.js`) -/

/-- A validator finding, embedding `checkTaskChains` of `data/analyze_chains.js`:
each constructor stands for one of the template strings pushed into `issues`,
carrying the data interpolated into that string. -/
inductive Issue where
  | headCount (statusId : String) (n : Nat)
  | cycleAt (statusId : String) (taskId : String)
  | danglingNext (taskId : String) (nextId : String)
  | bidirMismatch (taskId : String) (nextId : String)
  | crossStatus (taskId : String) (nextId : String)
  | lengthMismatch (statusId : String) (chainLength : Nat) (count : Nat)
deriving Repr, DecidableEq

/-- The partition keys of `Object.entries(tasksByStatus)`: the statuses held
by some task, in first-occurrence order (JavaScript object keys preserve
string-key insertion order). -/
def statusKeys (s : TaskData) : List String :=
  s.foldl (fun ks r => if r.status ∈ ks then ks else ks ++ [r.status]) []

/-- The `while (current)` loop of `checkTaskChains`: counts the chain length
and collects issues, breaking on a revisited identifier or a dangling `next`,
continuing (issue noted, no break) past a backward-pointer mismatch or a
cross-status `next`.  The fuel is called with `s.length + 1`, which the loop
can never exhaust because every step adds a fresh identifier to `visited`. -/
def chainWalk (s : TaskData) (k : String) : Nat → List String → TaskType → Nat × List Issue
  | 0, _, _ => (0, [])
  | fuel + 1, visited, current =>
      if current.id ∈ visited then (1, [Issue.cycleAt k current.id])
      else
        match current.next with
        | none => (1, [])
        | some nid =>
            match lookupRec s nid with
            | none => (1, [Issue.danglingNext current.id nid])
            | some nt =>
                let i1 : List Issue :=
                  if nt.prev = some current.id then [] else [Issue.bidirMismatch current.id nt.id]
                let i2 : List Issue :=
                  if nt.status = k then [] else [Issue.crossStatus current.id nt.id]
                let w := chainWalk s k fuel (visited ++ [current.id]) nt
                (1 + w.1, i1 ++ i2 ++ w.2)

/-- The per-partition body of the `Object.entries(tasksByStatus).forEach`:
a head-count issue if the number of `prev = null` members differs from one,
then — only when at least one head exists — the issues of the traversal from
the first head, then a length-mismatch issue if the chain length differs from
the partition's member count. -/
def checkPartition (s : TaskData) (k : String) : List Issue :=
  (if ((membersOf s k).filter (fun t => t.prev == none)).length ≠ 1
   then [Issue.headCount k ((membersOf s k).filter (fun t => t.prev == none)).length]
   else []) ++
  (match (membersOf s k).filter (fun t => t.prev == none) with
   | [] => []
   | h :: _ =>
       (chainWalk s k (s.length + 1) [] h).2 ++
       (if (chainWalk s k (s.length + 1) [] h).1 ≠ (membersOf s k).length
        then [Issue.lengthMismatch k (chainWalk s k (s.length + 1) [] h).1
                (membersOf s k).length]
        else []))

/-- Embeds `checkTaskChains` of `data/analyze_chains.js`: group the tasks by
status, and for each status key in first-occurrence order append the
partition's issues. -/
def checkTaskChains (s : TaskData) : List Issue :=
  (statusKeys s).foldl (fun acc k => acc ++ checkPartition s k) []

theorem mem_foldl_append {α β : Type} (f : β → List α) :
    ∀ (l : List β) (acc : List α) (x : α),
      (x ∈ acc ∨ ∃ k ∈ l, x ∈ f k) → x ∈ l.foldl (fun a k => a ++ f k) acc
  | [], acc, x, h => by
      rcases h with h | ⟨k, hk, _⟩
      · exact h
      · cases hk
  | k0 :: l, acc, x, h => by
      have h1 : (k0 :: l).foldl (fun a k => a ++ f k) acc =
          l.foldl (fun a k => a ++ f k) (acc ++ f k0) := rfl
      rw [h1]
      refine mem_foldl_append f l (acc ++ f k0) x ?_
      rcases h with h | ⟨k, hk, hx⟩
      · exact Or.inl (List.mem_append.mpr (Or.inl h))
      · rcases List.mem_cons.mp hk with rfl | hk2
        · exact Or.inl (List.mem_append.mpr (Or.inr hx))
        · exact Or.inr ⟨k, hk2, hx⟩

/-- A store whose only partition is a two-cycle with no head: the validator
reports the head-count issue and nothing else, although the unique-tail,
no-cycle, and traversal-completeness invariants are violated as well. -/
def cycleStore : TaskData :=
  [{ id := "A", title := "A", status := "colA", previousStatus := "colA",
     prev := some "B", next := some "B" },
   { id := "B", title := "B", status := "colA", previousStatus := "colA",
     prev := some "A", next := some "A" }]

theorem c7_counterexample :
    checkTaskChains cycleStore = [Issue.headCount "colA" 0] ∧
    (tailsOf cycleStore "colA").length = 0 ∧
    membersOf cycleStore "colA" ≠ [] ∧
    ¬ FiveInvariants ["colA"] cycleStore := by
  refine ⟨by decide, by decide, by decide, ?_⟩
  intro h5
  have hue := h5.2.1 "colA" (by decide)
  have ht : (tailsOf cycleStore "colA").length = 0 := by decide
  rw [ht] at hue
  exact absurd hue.2 (by decide)

/-- C7.  The validator and the head-count invariant — amended: the validator
does not report every invariant violation (see the two-cycle store, where the
missing tail, the cycle and the failed traversal go unreported and only the
head count is flagged), but for every snapshot and every partition present in
it whose number of `prev = null` members differs from one, the structured
issue list does contain the head-count violation for that partition, carrying
the offending count. -/
theorem c7_headcount_reported (s : TaskData) (k : String)
    (hk : k ∈ statusKeys s)
    (hh : ((membersOf s k).filter (fun t => t.prev == none)).length ≠ 1) :
    Issue.headCount k ((membersOf s k).filter (fun t => t.prev == none)).length ∈
      checkTaskChains s := by
  rw [checkTaskChains]
  refine mem_foldl_append (checkPartition s) (statusKeys s) [] _ (Or.inr ⟨k, hk, ?_⟩)
  rw [checkPartition]
  refine List.mem_append.mpr (Or.inl ?_)
  rw [if_pos hh]
  exact List.mem_singleton_self _

theorem c7_witness :
    ("colA" : String) ∈ statusKeys cycleStore ∧
    ((membersOf cycleStore "colA").filter (fun t => t.prev == none)).length ≠ 1 ∧
    Issue.headCount "colA"
        ((membersOf cycleStore "colA").filter (fun t => t.prev == none)).length ∈
      checkTaskChains cycleStore :=
  ⟨by decide, by decide, c7_headcount_reported cycleStore "colA" (by decide) (by decide)⟩

/-! ### Gesture handlers (`AddNewTask.tsx`, `ProjectButton.tsx`) and the
commit-failure paths -/

/-- Whether a gesture handler awaits the server post inside its try/catch.
`AddNewTask.handleKeyboard` writes `await postPayloadToServer(...)` inside
its try block; `ProjectButton.handleClick` (switch focused project),
`ProjectButton.handlePressEnterAndEscape` (rename project) and
`ProjectButton.handleDeleteButton` (delete project) call
`postPayloadToServer(...)` without `await`. -/
def addTaskAwaitsCommit : Bool := true

def focusProjectAwaitsCommit : Bool := false

def updateProjectAwaitsCommit : Bool := false

def deleteProjectAwaitsCommit : Bool := false

/-- The local working copy after a gesture whose remote commit fails
following a successful optimistic apply: when the handler awaited the post,
the rejection reaches its catch block and `restoreBackup` replays the
transaction's backup; when the post is not awaited, the rejection surfaces
only after the try/catch has been exited, no catch block runs, and the
optimistically applied state stays in place. -/
def commitFailureResult (awaits : Bool) (s : TaskData) (ops : List PrimOp) : TaskData :=
  if awaits then restoreBackup (applyPrims s ops) (createBackup s ops)
  else applyPrims s ops

/-- C4.  Code bug: the claim holds of the add-task gesture, whose handler
awaits the post so a commit failure restores the pre-transaction working copy
— but the rename-project, delete-project and switch-focused-project handlers
of `ProjectButton.tsx` do not await `postPayloadToServer`, so their commit
failures never reach the catch block: the optimistically applied state is
left in place, differing from the pre-transaction working copy.  (The
focused-project switch is represented by its single update primitive.) -/
theorem c4_commit_failure_not_rolled_back :
    commitFailureResult addTaskAwaitsCommit storeC5
        (txOps storeC5 [Intent.iadd
          { id := "T0", title := "t0", status := "colA", previousStatus := "colA",
            prev := none, next := none } none]) = storeC5 ∧
    commitFailureResult updateProjectAwaitsCommit storeC5
        (txOps storeC5 [Intent.iupd "T1" "renamed"]) ≠ storeC5 ∧
    commitFailureResult updateProjectAwaitsCommit storeC5
        (txOps storeC5 [Intent.iupd "T1" "renamed"]) =
      applyPrims storeC5 (txOps storeC5 [Intent.iupd "T1" "renamed"]) ∧
    commitFailureResult deleteProjectAwaitsCommit storeC5
        (txOps storeC5 [Intent.idel "T3"]) ≠ storeC5 ∧
    commitFailureResult focusProjectAwaitsCommit storeC5
        [PrimOp.pupd "T1" { title := some "focus" }] ≠ storeC5 := by
  decide

/-- JavaScript `String.prototype.trim`, over the string's characters: strip
leading and trailing whitespace. -/
def trimJS (t : String) : String :=
  ⟨((t.data.dropWhile Char.isWhitespace).reverse.dropWhile Char.isWhitespace).reverse⟩

/-- The observable outcome of one gesture handler run: whether a bulk payload
and backup were created (the transaction started), whether a request was
posted to the store, and the resulting local working copy. -/
structure GestureOutcome where
  txStarted : Bool
  posted : Bool
  state : TaskData
deriving Repr, DecidableEq

/-- Embeds the Enter branch of `handleKeyboard` in `AddNewTask.tsx`: the
input field's value is trimmed, and only a non-empty trimmed title (the JS
truthiness guard `if (newTaskTitle)`) builds the new task, the bulk payload
and backup, applies optimistically and posts; the generated identifier of the
new task is a parameter.  An empty trimmed title only clears the field. -/
def handleKeyboardEnter (s : TaskData) (k : String) (newId raw : String) : GestureOutcome :=
  if trimJS raw = "" then { txStarted := false, posted := false, state := s }
  else
    { txStarted := true, posted := true,
      state := applyPrims s (txOps s
        [Intent.iadd
          { id := newId, title := trimJS raw, status := k, previousStatus := k,
            prev := none, next := none } none]) }

/-- Embeds the Enter branch of `handlePressEnterAndEscape` in
`ProjectButton.tsx`: a new title that trims to the empty string resets the
field and returns before any payload, backup, apply or post; an unchanged
title also returns; otherwise the rename transaction runs. -/
def handleRenameEnter (s : TaskData) (i : String) (oldTitle newTitle : String) :
    GestureOutcome :=
  if trimJS newTitle = "" then { txStarted := false, posted := false, state := s }
  else if newTitle = oldTitle then { txStarted := false, posted := false, state := s }
  else
    { txStarted := true, posted := true,
      state := applyPrims s (txOps s [Intent.iupd i newTitle]) }

/-- C9.  For every add-task or rename-project gesture whose entered title
trims to the empty string, the transaction never starts: no payload or backup
is created, the working copy is not modified by any apply, and nothing is
posted to the store. -/
theorem c9_empty_title_no_transaction (s : TaskData) (k newId raw : String)
    (i oldTitle newTitle : String) (hraw : trimJS raw = "") (hnt : trimJS newTitle = "") :
    handleKeyboardEnter s k newId raw = { txStarted := false, posted := false, state := s } ∧
    handleRenameEnter s i oldTitle newTitle =
      { txStarted := false, posted := false, state := s } := by
  constructor
  · rw [handleKeyboardEnter, if_pos hraw]
  · rw [handleRenameEnter, if_pos hnt]

theorem c9_witness :
    trimJS "   " = "" ∧ trimJS " " = "" ∧
    (handleKeyboardEnter storeC5 "colA" "T9" "   " =
        { txStarted := false, posted := false, state := storeC5 } ∧
      handleRenameEnter storeC5 "T1" "old" " " =
        { txStarted := false, posted := false, state := storeC5 }) :=
  ⟨by decide, by decide,
    c9_empty_title_no_transaction storeC5 "colA" "T9" "   " "T1" "old" " "
      (by decide) (by decide)⟩

/-! ### The initial loader (`loadAllData` of `AppContext.tsx`) -/

/-- Embeds `UserProfileData` from `type.ts`: every field nullable. -/
structure UserProfileData where
  id : Option String
  nickname : Option String
  lastProjectId : Option String
  avatarUrl : Option String
  language : Option String
deriving Repr, DecidableEq

/-- The all-null user profile that `loadAllData` starts from and that its
catch block returns. -/
def emptyProfile : UserProfileData :=
  { id := none, nickname := none, lastProjectId := none, avatarUrl := none,
    language := none }

/-- The resolved value of `loadAllData`: the four record collections (the
project and status collections use the shared record shape of this
development). -/
structure LoadedData where
  taskData : TaskData
  projectData : TaskData
  statusData : TaskData
  userProfileData : UserProfileData
deriving Repr, DecidableEq

/-- The outcome of the `/api/getAll` fetch as seen by `loadAllData`: a
non-OK response carrying its HTTP status, an error thrown while fetching or
processing the response, or a successfully parsed payload. -/
inductive FetchResult where
  | notOk (status : Nat)
  | processError
  | ok (tasks projects statuses : TaskData) (userProfile : UserProfileData)
deriving Repr, DecidableEq

/-- Embeds `loadAllData` of `AppContext.tsx`, also returning whether the
handler navigated to the login page: a non-OK response first navigates to
`/login` when its status is 401, then throws; any throw lands in the catch
block, which resolves with empty collections and the all-null profile rather
than rejecting. -/
def loadAllData : FetchResult → LoadedData × Bool
  | .notOk status => (⟨[], [], [], emptyProfile⟩, status == 401)
  | .processError => (⟨[], [], [], emptyProfile⟩, false)
  | .ok tasks projects statuses profile => (⟨tasks, projects, statuses, profile⟩, false)

/-- C10.  Every failure of the initial load — a non-OK HTTP response
(including 401, which additionally redirects to the login page) or any error
while fetching or processing the response — is swallowed by `loadAllData`:
it resolves with the empty working copy (empty task, project and status
collections, all-null profile), indistinguishable to the caller from a
successful load of an account holding no data. -/
theorem c10_load_failure_empty (res : FetchResult)
    (h : ∀ t p st pr, res ≠ FetchResult.ok t p st pr) :
    (loadAllData res).1 = ⟨[], [], [], emptyProfile⟩ ∧
    (loadAllData res).1 = (loadAllData (FetchResult.ok [] [] [] emptyProfile)).1 := by
  cases res with
  | notOk status => exact ⟨rfl, rfl⟩
  | processError => exact ⟨rfl, rfl⟩
  | ok t p st pr => exact absurd rfl (h t p st pr)

theorem c10_witness :
    (∀ t p st pr, FetchResult.notOk 401 ≠ FetchResult.ok t p st pr) ∧
    ((loadAllData (FetchResult.notOk 401)).1 = ⟨[], [], [], emptyProfile⟩ ∧
      (loadAllData (FetchResult.notOk 401)).1 =
        (loadAllData (FetchResult.ok [] [] [] emptyProfile)).1) :=
  ⟨fun _ _ _ _ h => FetchResult.noConfusion h,
    c10_load_failure_empty (FetchResult.notOk 401)
      (fun _ _ _ _ h => FetchResult.noConfusion h)⟩

end Antist
